import Mathlib

/-!
Verification of the SceneSplit budget view, upload validation and auth store
(frontend sources: the BudgetView component, the AI chat panel's `uploadFile`,
and the Pinia auth store).

Conventions of the embedding:
* JavaScript numbers are modelled exactly as rationals, together with the
  special values `NaN`, `Infinity` and `-Infinity` (`JSNum`).  Double-precision
  rounding and overflow to `Infinity` (which only matters beyond `1e308`) are
  not modelled.
* JavaScript strings are Lean `String`s; all character-level processing is done
  on `List Char` with structural recursion so that every definition evaluates
  inside the kernel.
* `String.prototype.toLowerCase`, `toUpperCase` and the regexp classes `\d`,
  `[A-Z]` are ASCII in the source's usage and are modelled with the ASCII
  `Char` operations.
* `Number.prototype.toLocaleString()` is modelled with the host default locale
  that the application targets (en-US style grouping, which ms-MY shares):
  thousands separated by commas, decimal point, at most three fraction digits,
  rounding half away from zero.
-/

/-- A JavaScript number: `NaN`, the two infinities, or a finite value
(modelled as an exact rational). -/
inductive JSNum where
  | nan : JSNum
  | inf : JSNum
  | ninf : JSNum
  | fin : ℚ → JSNum
deriving DecidableEq, Repr

/-- JavaScript `+` on numbers. -/
def jsAdd : JSNum → JSNum → JSNum
  | .nan, _ => .nan
  | _, .nan => .nan
  | .inf, .ninf => .nan
  | .ninf, .inf => .nan
  | .inf, _ => .inf
  | _, .inf => .inf
  | .ninf, _ => .ninf
  | _, .ninf => .ninf
  | .fin a, .fin b => .fin (a + b)

/-- JavaScript `*` on numbers. -/
def jsMul : JSNum → JSNum → JSNum
  | .nan, _ => .nan
  | _, .nan => .nan
  | .fin a, .fin b => .fin (a * b)
  | .inf, .inf => .inf
  | .inf, .ninf => .ninf
  | .ninf, .inf => .ninf
  | .ninf, .ninf => .inf
  | .inf, .fin b => if b = 0 then .nan else if 0 < b then .inf else .ninf
  | .fin a, .inf => if a = 0 then .nan else if 0 < a then .inf else .ninf
  | .ninf, .fin b => if b = 0 then .nan else if 0 < b then .ninf else .inf
  | .fin a, .ninf => if a = 0 then .nan else if 0 < a then .ninf else .inf

/-- JavaScript `/` on numbers. -/
def jsDiv : JSNum → JSNum → JSNum
  | .nan, _ => .nan
  | _, .nan => .nan
  | .fin a, .fin b =>
      if b = 0 then (if a = 0 then .nan else if 0 < a then .inf else .ninf)
      else .fin (a / b)
  | .inf, .inf => .nan
  | .inf, .ninf => .nan
  | .ninf, .inf => .nan
  | .ninf, .ninf => .nan
  | .inf, .fin b => if 0 ≤ b then .inf else .ninf
  | .ninf, .fin b => if 0 ≤ b then .ninf else .inf
  | .fin _, .inf => .fin 0
  | .fin _, .ninf => .fin 0

/-- Rounding of `Number.prototype.toFixed(1)`: the decimal with one fraction
digit nearest to the value, ties resolved towards the larger value. -/
def round1 (q : ℚ) : ℚ := (⌊q * 10 + 1 / 2⌋ : ℚ) / 10

/-- The source's `+(x).toFixed(1)` round trip on a number: finite values are
rounded to one decimal place; `NaN` and the infinities survive the round trip
unchanged (`+"NaN"` is `NaN`, `+"Infinity"` is `Infinity`). -/
def jsToFixed1 : JSNum → JSNum
  | .fin q => .fin (round1 q)
  | x => x

/-- JavaScript `x > 0` (false on `NaN`). -/
def jsGtZero : JSNum → Bool
  | .fin q => decide (0 < q)
  | .inf => true
  | _ => false

/-- JavaScript `x < 0` (false on `NaN`). -/
def jsLtZero : JSNum → Bool
  | .fin q => decide (q < 0)
  | .ninf => true
  | _ => false

/-- Whitespace accepted by `Number(...)` string trimming (the ASCII part of
the `StrWhiteSpace` production). -/
def jsWhitespace (c : Char) : Bool :=
  c = ' ' ∨ c = '\t' ∨ c = '\n' ∨ c = '\r' ∨ c = '\x0b' ∨ c = '\x0c'

/-- Trim leading and trailing whitespace from a character list. -/
def trimWS (l : List Char) : List Char :=
  ((l.dropWhile jsWhitespace).reverse.dropWhile jsWhitespace).reverse

/-- Numeric value of an ASCII digit character. -/
def digVal (c : Char) : ℕ := c.toNat - 48

/-- Value of a list of ASCII decimal digit characters. -/
def digitsVal (l : List Char) : ℕ := l.foldl (fun a c => a * 10 + digVal c) 0

/-- ASCII hexadecimal digit test. -/
def isHexDigitC (c : Char) : Bool :=
  c.isDigit ∨ ('a' ≤ c ∧ c ≤ 'f') ∨ ('A' ≤ c ∧ c ≤ 'F')

/-- Numeric value of an ASCII hexadecimal digit character. -/
def hexVal (c : Char) : ℕ :=
  if c.isDigit then digVal c
  else if 'a' ≤ c ∧ c ≤ 'f' then c.toNat - 87
  else c.toNat - 55

/-- Value of a list of hexadecimal digit characters. -/
def hexDigitsVal (l : List Char) : ℕ := l.foldl (fun a c => a * 16 + hexVal c) 0

/-- Octal digit test. -/
def isOctDigitC (c : Char) : Bool := '0' ≤ c ∧ c ≤ '7'

/-- Value of a list of octal digit characters. -/
def octDigitsVal (l : List Char) : ℕ := l.foldl (fun a c => a * 8 + digVal c) 0

/-- Binary digit test. -/
def isBinDigitC (c : Char) : Bool := c = '0' ∨ c = '1'

/-- Value of a list of binary digit characters. -/
def binDigitsVal (l : List Char) : ℕ := l.foldl (fun a c => a * 2 + digVal c) 0

/-- Syntactic outcome of `Number(string)`: every numeric component is kept as
a natural number so that parsing is fully kernel-computable; the rational
value is produced later by `interpNumParse`. -/
inductive NumParse where
  | nan : NumParse
  | posInf : NumParse
  | negInf : NumParse
  | val (neg : Bool) (i f k : ℕ) (eneg : Bool) (e : ℕ) : NumParse
deriving DecidableEq, Repr

/-- Exponent part of the `StrDecimalLiteral` grammar: either nothing remains,
or `e`/`E`, an optional sign and a nonempty digit run ending the input. -/
def parseExpPart (neg : Bool) (i f k : ℕ) : List Char → NumParse
  | [] => .val neg i f k false 0
  | c :: r =>
    if c = 'e' ∨ c = 'E' then
      match r with
      | [] => .nan
      | c2 :: d =>
        if c2 = '+' then
          (if d ≠ [] ∧ d.all Char.isDigit then .val neg i f k false (digitsVal d) else .nan)
        else if c2 = '-' then
          (if d ≠ [] ∧ d.all Char.isDigit then .val neg i f k true (digitsVal d) else .nan)
        else
          (if (c2 :: d).all Char.isDigit then .val neg i f k false (digitsVal (c2 :: d)) else .nan)
    else .nan

/-- The `StrUnsignedDecimalLiteral` grammar: digits, an optional dot with
optional further digits (at least one digit overall), then an optional
exponent part. -/
def parseDecimal (neg : Bool) (r : List Char) : NumParse :=
  let ip := r.takeWhile Char.isDigit
  match r.dropWhile Char.isDigit with
  | [] => if ip = [] then .nan else parseExpPart neg (digitsVal ip) 0 0 []
  | c :: r2 =>
    if c = '.' then
      let fp := r2.takeWhile Char.isDigit
      let r3 := r2.dropWhile Char.isDigit
      if ip = [] ∧ fp = [] then .nan
      else parseExpPart neg (digitsVal ip) (digitsVal fp) fp.length r3
    else if ip = [] then .nan
    else parseExpPart neg (digitsVal ip) 0 0 (c :: r2)

/-- A signed operand of `Number(...)`: the literal `Infinity` or a decimal
literal. -/
def parseSigned (neg : Bool) (r : List Char) : NumParse :=
  if r = ['I', 'n', 'f', 'i', 'n', 'i', 't', 'y'] then
    (if neg then .negInf else .posInf)
  else parseDecimal neg r

/-- An unsigned operand of `Number(...)`: hex / octal / binary literals are
only recognized without a sign; otherwise the input is a signed-free decimal
literal or `Infinity`. -/
def parseUnsignedRadix (t : List Char) : NumParse :=
  match t with
  | c0 :: c :: r =>
      if c0 = '0' then
        if c = 'x' ∨ c = 'X' then
          (if r ≠ [] ∧ r.all isHexDigitC then .val false (hexDigitsVal r) 0 0 false 0 else .nan)
        else if c = 'o' ∨ c = 'O' then
          (if r ≠ [] ∧ r.all isOctDigitC then .val false (octDigitsVal r) 0 0 false 0 else .nan)
        else if c = 'b' ∨ c = 'B' then
          (if r ≠ [] ∧ r.all isBinDigitC then .val false (binDigitsVal r) 0 0 false 0 else .nan)
        else parseSigned false (c0 :: c :: r)
      else parseSigned false (c0 :: c :: r)
  | _ => parseSigned false t

/-- The full `Number(string)` string grammar on a character list: trim
whitespace, an empty remainder is `0`, an optional leading sign applies to a
decimal literal or `Infinity`, and radix literals are unsigned. -/
def jsNumberCore (l : List Char) : NumParse :=
  match trimWS l with
  | [] => .val false 0 0 0 false 0
  | c :: r =>
    if c = '+' then parseSigned false r
    else if c = '-' then parseSigned true r
    else parseUnsignedRadix (c :: r)

/-- Rational value of a parsed numeric literal. -/
def interpNumParse : NumParse → JSNum
  | .nan => .nan
  | .posInf => .inf
  | .negInf => .ninf
  | .val neg i f k eneg e =>
      let m : ℚ := (i : ℚ) + (f : ℚ) / 10 ^ k
      let me : ℚ := if eneg then m / 10 ^ e else m * 10 ^ e
      .fin (if neg then -me else me)

/-- `Number(string)` on a character list. -/
def jsNumberL (l : List Char) : JSNum := interpNumParse (jsNumberCore l)

/-- JavaScript `Number(string)`. -/
def jsNumber (s : String) : JSNum := interpNumParse (jsNumberCore s.data)

/-- Characters kept by the source's `replace(/[^\d.]/g, '')`. -/
def stripKeep (c : Char) : Bool := c.isDigit || c = '.'

/-- The BudgetView helper
`parseRM(val) = !val ? 0 : Number(String(val).replace(/[^\d.]/g, ''))`
restricted to its string inputs (an empty string is the only falsy string). -/
def parseRM (val : String) : JSNum :=
  if val = "" then .fin 0 else jsNumberL (val.data.filter stripKeep)

/-- Decimal digits of a natural number, least significant first, driven by a
fuel argument (the fuel `n + 1` always suffices). -/
def digitsRevAux : ℕ → ℕ → List ℕ
  | 0, _ => []
  | fuel + 1, n => if n = 0 then [] else n % 10 :: digitsRevAux fuel (n / 10)

/-- Decimal digits of a natural number, least significant first; `0` has the
single digit `0`. -/
def natDigitsRev (n : ℕ) : List ℕ := if n = 0 then [0] else digitsRevAux (n + 1) n

/-- Character of a decimal digit. -/
def digitChar (d : ℕ) : Char := Char.ofNat (48 + d)

/-- Interleave grouping commas into a least-significant-first digit list: a
comma precedes (in final reading order, follows) every third digit. -/
def withCommasRev : List ℕ → ℕ → List Char
  | [], _ => []
  | d :: ds, cnt =>
      (if cnt ≠ 0 ∧ cnt % 3 = 0 then [',', digitChar d] else [digitChar d])
        ++ withCommasRev ds (cnt + 1)

/-- en-US rendering of a natural number with thousands separators, as
produced by `toLocaleString()`. -/
def groupNat (n : ℕ) : String := String.mk ((withCommasRev (natDigitsRev n) 0).reverse)

/-- Fraction rendering of `toLocaleString()`: `f < 1000` holds the three
(rounded) fraction digits; trailing zeros are not displayed. -/
def fracPart (f : ℕ) : String :=
  if f = 0 then ""
  else if f % 10 ≠ 0 then
    String.mk ['.', digitChar (f / 100), digitChar (f / 10 % 10), digitChar (f % 10)]
  else if f % 100 ≠ 0 then String.mk ['.', digitChar (f / 100), digitChar (f / 10 % 10)]
  else String.mk ['.', digitChar (f / 100)]

/-- Locale rendering of a non-negative value scaled by 1000 (three fraction
digits of resolution). -/
def renderLocale (n3 : ℕ) : String := groupNat (n3 / 1000) ++ fracPart (n3 % 1000)

/-- `toLocaleString()` on a finite value: round half away from zero to three
fraction digits, group the integer part with commas. -/
def toLocaleQ (q : ℚ) : String :=
  if q < 0 then "-" ++ renderLocale (Int.toNat ⌊-q * 1000 + 1 / 2⌋)
  else renderLocale (Int.toNat ⌊q * 1000 + 1 / 2⌋)

/-- `Number.prototype.toLocaleString()` (en-US defaults, see the header
comment). -/
def jsToLocale : JSNum → String
  | .nan => "NaN"
  | .inf => "∞"
  | .ninf => "-∞"
  | .fin q => toLocaleQ q

/-- Plain (ungrouped) decimal rendering of a natural number. -/
def natPlain (n : ℕ) : String := String.mk ((natDigitsRev n).reverse.map digitChar)

/-- Least number of decimal fraction digits that makes `q` an integer, when
one exists (it does whenever the reduced denominator has only the prime
factors 2 and 5, which holds for every value `Number(string)` produces). -/
def decExpSearch (q : ℚ) : Option ℕ :=
  (List.range (q.den + 1)).find? (fun k => (q * (10 : ℚ) ^ k).den = 1)

/-- Render `k` fraction digits of `fp` (most significant first, `fp < 10^k`). -/
def padDigits (k fp : ℕ) : String :=
  String.mk ((List.range k).map (fun i => digitChar (fp / 10 ^ (k - 1 - i) % 10)))

/-- Drop the trailing decimal zeros of a digit value (first argument is fuel;
any fuel above the digit count of `n` gives the fixpoint). -/
def stripTrailingZeros : ℕ → ℕ → ℕ
  | 0, n => n
  | f + 1, n => if n ≠ 0 ∧ n % 10 = 0 then stripTrailingZeros f (n / 10) else n

/-- The exponential form `d[.ddd]e±X` of ECMA `Number::toString`: `N` holds
all decimal digits of the value and `n` is the position of the decimal point
counted from the first significant digit (the spec's `n`), so the printed
exponent is `n - 1` and the mantissa is `N` with trailing zeros removed. -/
def expForm (N : ℕ) (n : ℤ) : String :=
  (match (natDigitsRev (stripTrailingZeros (N + 1) N)).reverse.map digitChar with
   | [] => "0"
   | [c] => String.mk [c]
   | c :: rest => String.mk [c] ++ "." ++ String.mk rest) ++
  "e" ++ (if n - 1 < 0 then "-" else "+") ++ natPlain (n - 1).natAbs

/-- ECMA `Number::toString` (radix 10) on a non-negative rational whose
denominator divides a power of ten (which holds for every value
`Number(string)` produces): with `k` the least fraction-digit count and `N`
the full digit value, the decimal point sits `(natDigitsRev N).length - k`
places after the first significant digit; positional notation while that
position lies in `(-6, 21]`, the exponential form (`1e+21`, `1e-7`, ...)
outside it, exactly as JavaScript renders `1e21` and `0.0000001`. -/
def qToString (q : ℚ) : String :=
  match decExpSearch q with
  | none => "?"
  | some k =>
      let N := (q * (10 : ℚ) ^ k).num.toNat
      if 21 < ((natDigitsRev N).length : ℤ) - k ∨ ((natDigitsRev N).length : ℤ) - k ≤ -6 then
        expForm N (((natDigitsRev N).length : ℤ) - k)
      else
        natPlain (N / 10 ^ k) ++ (if k = 0 then "" else "." ++ padDigits k (N % 10 ^ k))

/-- `Number::toString` picks the plain positional form for `q`: the decimal
point falls within `(-6, 21]` of the first significant digit (values `0` or
in `[1e-6, 1e21)`). -/
def plainDecimal (q : ℚ) : Bool :=
  match decExpSearch q with
  | none => false
  | some k =>
      decide (((natDigitsRev ((q * (10 : ℚ) ^ k).num.toNat)).length : ℤ) - k ≤ 21 ∧
        -6 < ((natDigitsRev ((q * (10 : ℚ) ^ k).num.toNat)).length : ℤ) - k)

/-- JavaScript number-to-string conversion as used by the template literal
writing a budget amount back. -/
def jsNumToString : JSNum → String
  | .nan => "NaN"
  | .inf => "Infinity"
  | .ninf => "-Infinity"
  | .fin q => if q < 0 then "-" ++ qToString (-q) else qToString q

/-- The BudgetView name map for the seven fixed budget category keys. -/
def nameMap : List (String × String) :=
  [("talent", "Talent"), ("location", "Location"), ("propsSet", "Props & Set"),
   ("wardrobeMakeup", "Wardrobe & Makeup"), ("sfxVfx", "SFX & VFX"),
   ("crew", "Crew"), ("miscellaneous", "Miscellaneous")]

/-- The fallback branch of `formatCategoryName`: insert a space before every
capital letter (`replace(/([A-Z])/g, ' $1')`). -/
def camelSplit (l : List Char) : List Char :=
  l.flatMap (fun c => if c.isUpper then [' ', c] else [c])

/-- The fallback branch of `formatCategoryName`: capitalize the first
character (`replace(/^./, s => s.toUpperCase())`). -/
def upFirst : List Char → List Char
  | [] => []
  | c :: cs => c.toUpper :: cs

/-- The BudgetView helper `formatCategoryName`: the fixed name map, with a
camel-case-splitting, capitalizing fallback for unknown keys. -/
def formatCategoryName (key : String) : String :=
  match nameMap.lookup key with
  | some n => n
  | none => String.mk (upFirst (camelSplit key.data))

/-- The BudgetView `categoryColors` record. -/
def categoryColors : List (String × String) :=
  [("talent", "#00C6FB"), ("location", "#FFD233"), ("propsSet", "#3DD65B"),
   ("wardrobeMakeup", "#A259FF"), ("sfxVfx", "#FF6B6B"), ("crew", "#FF9900"),
   ("miscellaneous", "#FFB300")]

/-- `categoryColors[key] || '#888888'`. -/
def colorOf (key : String) : String := (categoryColors.lookup key).getD "#888888"

/-- One record of the displayed budget breakdown sequence. -/
structure BudgetEntry where
  name : String
  amount : String
  percent : JSNum
  color : String
deriving DecidableEq, Repr

/-- The record the `breakdown` computed property builds from one budget
mapping entry, given the precomputed total. -/
def mkEntry (total : JSNum) (p : String × String) : BudgetEntry :=
  let amount := parseRM p.2
  { name := formatCategoryName p.1
    amount := "RM " ++ jsToLocale amount
    percent := jsToFixed1 (jsMul (jsDiv amount total) (.fin 100))
    color := colorOf p.1 }

/-- The budget mapping: a JavaScript object with string keys in insertion
order (`Object.entries` / `Object.values` enumerate it in that order). -/
abbrev BudgetMap := List (String × String)

/-- `Object.values(budgetObj).map(v => parseRM(v)).reduce((a, b) => a + b, 0)`. -/
def totalOf (b : BudgetMap) : JSNum := (b.map (fun p => parseRM p.2)).foldl jsAdd (.fin 0)

/-- The mapped-and-filtered (but not yet sorted) display list:
`Object.entries(budgetObj).map(...).filter(item => item.percent > 0)`. -/
def displayedEntries (b : BudgetMap) : List BudgetEntry :=
  (b.map (mkEntry (totalOf b))).filter (fun e => jsGtZero e.percent)

/-- The sort comparator `(a, b) => b.percent - a.percent` asks for `a` first
exactly when `a.percent > b.percent`; a `NaN` comparator value counts as
equal. -/
def entryGt (x y : BudgetEntry) : Bool :=
  match x.percent, y.percent with
  | .fin a, .fin b => decide (b < a)
  | .inf, .fin _ => true
  | .fin _, .ninf => true
  | .inf, .ninf => true
  | _, _ => false

/-- Stable insertion for descending order: `x` moves past exactly the
elements strictly above it, so equal elements keep their original order —
the behaviour ECMAScript guarantees for `Array.prototype.sort`. -/
def insertEntry (x : BudgetEntry) : List BudgetEntry → List BudgetEntry
  | [] => [x]
  | y :: ys => if entryGt y x then y :: insertEntry x ys else x :: y :: ys

/-- Stable descending sort by percent (`sort((a, b) => b.percent - a.percent)`). -/
def sortEntries : List BudgetEntry → List BudgetEntry
  | [] => []
  | x :: xs => insertEntry x (sortEntries xs)

/-- The BudgetView `breakdown` computed property on a present budget mapping:
an all-zero (or empty) budget displays nothing, otherwise map, filter the
zero percents out and sort descending. -/
def breakdown (b : BudgetMap) : List BudgetEntry :=
  if totalOf b = .fin 0 then [] else sortEntries (displayedEntries b)

/-- The `breakdown` computed property including its guard
`if (!project?.scriptBreakdown?.budget) return []`. -/
def breakdownOf : Option BudgetMap → List BudgetEntry
  | none => []
  | some b => breakdown b

/-- A Vue `computed` only reads the state it closes over; evaluating
`breakdown` returns the display list and leaves the underlying budget mapping
exactly as it was. -/
def breakdownCompute (budget : Option BudgetMap) : List BudgetEntry × Option BudgetMap :=
  (breakdownOf budget, budget)

/-- The slice of a project the budget editor touches: the breakdown budget
mapping (`project.scriptBreakdown?.budget`) and the analysis copy
(`project.analysis_data?.script_breakdown?.budget`). -/
structure ProjectBudgets where
  scriptBudget : Option BudgetMap
  analysisBudget : Option BudgetMap
deriving DecidableEq, Repr

/-- The component state `saveBudgetEdit` reads and writes: the category
being edited (only its display `name` is consulted), the text of the amount
input, and the selected project. -/
structure BudgetEditState where
  editing : Option String
  editAmount : String
  project : Option ProjectBudgets
deriving DecidableEq, Repr

/-- `Object.keys(budget).find(key => formatCategoryName(key) === name)`. -/
def findCategoryKey (b : BudgetMap) (nm : String) : Option String :=
  (b.map Prod.fst).find? (fun k => formatCategoryName k = nm)

/-- JavaScript object assignment `budget[k] = v`: replace the value of an
existing key in place, or append a fresh key at the end. -/
def setKey (b : BudgetMap) (k v : String) : BudgetMap :=
  if (b.map Prod.fst).contains k then
    b.map (fun p => if p.1 = k then (p.1, v) else p)
  else b ++ [(k, v)]

/-- The BudgetView `saveBudgetEdit` handler.  Control flow of the source:
return untouched unless a category is being edited and a project is selected;
alert and return untouched when `Number(editAmount)` is `NaN` or negative;
otherwise, when the project has a budget mapping and some key's display name
matches the edited category, write `RM ` + the amount into that key (and into
the analysis copy when present); finally clear the editing state. -/
def saveBudgetEdit (s : BudgetEditState) : BudgetEditState :=
  match s.editing, s.project with
  | none, _ => s
  | _, none => s
  | some nm, some proj =>
    let n := jsNumber s.editAmount
    if n = .nan ∨ jsLtZero n then s
    else
      let written := "RM " ++ jsNumToString n
      let proj' :=
        match proj.scriptBudget with
        | none => proj
        | some b =>
          match findCategoryKey b nm with
          | none => proj
          | some k =>
            { scriptBudget := some (setKey b k written)
              analysisBudget :=
                match proj.analysisBudget with
                | none => none
                | some ab => some (setKey ab k written) }
      { editing := none, editAmount := "", project := some proj' }

/-- The chat panel's accepted MIME types for a script upload. -/
def allowedTypes : List String := ["application/pdf", "text/plain", "text/x-fountain"]

/-- The chat panel's accepted file extensions for a script upload. -/
def allowedExtensions : List String := [".pdf", ".txt", ".fountain", ".fdx"]

/-- Split a character list on a separator character (the behaviour of
JavaScript `String.prototype.split` with a one-character separator). -/
def splitOnChar (sep : Char) : List Char → List (List Char)
  | [] => [[]]
  | c :: cs =>
    let r := splitOnChar sep cs
    if c = sep then [] :: r
    else
      match r with
      | [] => [[c]]
      | h :: t => (c :: h) :: t

/-- `'.' + file.name.split('.').pop()?.toLowerCase()`. -/
def fileExtensionOf (name : String) : String :=
  "." ++ String.mk (((splitOnChar '.' name.data).getLastD []).map Char.toLower)

/-- What `uploadFile` does after validating: either push the unsupported
format error message and stop, or forward the file to the analysis API. -/
inductive UploadOutcome where
  | rejected : UploadOutcome
  | requested : UploadOutcome
deriving DecidableEq, Repr

/-- The chat panel's `uploadFile` validation: reject exactly when the declared
content type is not an allowed type and the (lower-cased) extension is not an
allowed extension; otherwise the script is sent for analysis. -/
def uploadFile (name ftype : String) : UploadOutcome :=
  if ¬ allowedTypes.contains ftype ∧ ¬ allowedExtensions.contains (fileExtensionOf name) then
    .rejected
  else .requested

/-- The `User` interface of the auth store. -/
structure AuthUser where
  id : String
  username : String
  email : String
  full_name : Option String
  oauth_provider : Option String
  is_verified : Bool
  profile_picture_url : Option String
  created_at : String
deriving DecidableEq, Repr

/-- The reactive state of the Pinia auth store (`accessToken`, `user`); the
localStorage mirror carries no further observable state for these claims. -/
structure AuthState where
  accessToken : Option String
  user : Option AuthUser
deriving DecidableEq, Repr

/-- The getter `isAuthenticated = computed(() => !!accessToken.value)`:
double negation of string truthiness, so `null` and the empty string are both
unauthenticated. -/
def isAuthenticated (s : AuthState) : Bool :=
  match s.accessToken with
  | none => false
  | some t => !(t == "")

/-- The `setAuth(token, userData)` action. -/
def setAuth (_ : AuthState) (token : String) (userData : AuthUser) : AuthState :=
  { accessToken := some token, user := some userData }

/-- The `logout()` action. -/
def logout (_ : AuthState) : AuthState :=
  { accessToken := none, user := none }

/-! Helper lemmas about the numeric parser on digit-and-dot-only input, the
shape `parseRM` always produces. -/

/-- Unfolding of `stripKeep`. -/
lemma stripKeep_iff (c : Char) : stripKeep c = true ↔ c.isDigit = true ∨ c = '.' := by
  simp [stripKeep]

/-- A kept character is not whitespace. -/
lemma stripKeep_not_ws (c : Char) (h : stripKeep c = true) : jsWhitespace c = false := by
  rcases (stripKeep_iff c).mp h with hd | rfl
  · apply decide_eq_false
    rintro (rfl | rfl | rfl | rfl | rfl | rfl) <;> simp [Char.isDigit] at hd
  · decide

/-- `dropWhile` is the identity when no element satisfies the predicate. -/
lemma dropWhile_all_neg {p : Char → Bool} {l : List Char}
    (h : ∀ c ∈ l, p c = false) : l.dropWhile p = l := by
  cases l with
  | nil => rfl
  | cons c cs => rw [List.dropWhile_cons, h c (by simp)]; simp

/-- Trimming does nothing to a whitespace-free list. -/
lemma trimWS_all_neg {l : List Char} (h : ∀ c ∈ l, jsWhitespace c = false) :
    trimWS l = l := by
  unfold trimWS
  rw [dropWhile_all_neg h, dropWhile_all_neg (fun c hc => h c (List.mem_reverse.mp hc)),
    List.reverse_reverse]

/-- The head left by `dropWhile` fails the predicate. -/
lemma head_dropWhile_neg {p : Char → Bool} {l r : List Char} {c : Char}
    (h : l.dropWhile p = c :: r) : p c = false := by
  induction l with
  | nil => simp at h
  | cons a as ih =>
    rw [List.dropWhile_cons] at h
    by_cases hp : p a
    · exact ih (by simpa [hp] using h)
    · obtain ⟨rfl, -⟩ := List.cons.injEq .. ▸ (by simpa [hp] using h : a = c ∧ as = r)
      simpa using hp

/-- On digit-and-dot-only input the exponent part is either absent (all
consumed) or the parse fails: no `e`/`E` survives the strip. -/
lemma parseExpPart_digitdot (neg : Bool) (i f k : ℕ) (r : List Char)
    (hr : ∀ c ∈ r, stripKeep c = true) :
    parseExpPart neg i f k r = .nan ∨ parseExpPart neg i f k r = .val neg i f k false 0 := by
  cases r with
  | nil => right; rfl
  | cons c r2 =>
    have hc := (stripKeep_iff c).mp (hr c (by simp))
    have hne : ¬(c = 'e' ∨ c = 'E') := by
      rintro (rfl | rfl) <;> rcases hc with hd | hdot
      · exact absurd hd (by decide)
      · exact absurd hdot (by decide)
      · exact absurd hd (by decide)
      · exact absurd hdot (by decide)
    left
    simp only [parseExpPart]
    rw [if_neg hne]

/-- On digit-and-dot-only input a decimal literal parses to `NaN` or to an
unsigned, exponent-free value. -/
lemma parseDecimal_digitdot (neg : Bool) (r : List Char)
    (hr : ∀ c ∈ r, stripKeep c = true) :
    parseDecimal neg r = .nan ∨
      ∃ i f k, parseDecimal neg r = .val neg i f k false 0 := by
  have hsub : ∀ c ∈ r.dropWhile Char.isDigit, stripKeep c = true :=
    fun c hcm => hr c ((List.dropWhile_sublist _).subset hcm)
  cases hd : r.dropWhile Char.isDigit with
  | nil =>
    by_cases hip : r.takeWhile Char.isDigit = []
    · left; simp [parseDecimal, hd, hip]
    · right
      exact ⟨digitsVal (r.takeWhile Char.isDigit), 0, 0,
        by simp [parseDecimal, hd, hip, parseExpPart]⟩
  | cons c r2 =>
    have hcs := (stripKeep_iff c).mp (hsub c (by rw [hd]; simp))
    have hcd : c.isDigit = false := head_dropWhile_neg hd
    have hcdot : c = '.' := by
      rcases hcs with h1 | h2
      · rw [hcd] at h1; exact absurd h1 (by simp)
      · exact h2
    subst hcdot
    have hr2 : ∀ x ∈ r2, stripKeep x = true := by
      intro x hx
      exact hsub x (by rw [hd]; simp [hx])
    have hr3 : ∀ x ∈ r2.dropWhile Char.isDigit, stripKeep x = true :=
      fun x hx => hr2 x ((List.dropWhile_sublist _).subset hx)
    by_cases hif : r.takeWhile Char.isDigit = [] ∧ r2.takeWhile Char.isDigit = []
    · left
      simp only [parseDecimal, hd]
      rw [if_pos trivial, if_pos hif]
    · rcases parseExpPart_digitdot neg (digitsVal (r.takeWhile Char.isDigit))
          (digitsVal (r2.takeWhile Char.isDigit)) (r2.takeWhile Char.isDigit).length
          (r2.dropWhile Char.isDigit) hr3 with h | h
      · left
        simp only [parseDecimal, hd]
        rw [if_pos trivial, if_neg hif]
        exact h
      · right
        have hgoal : parseDecimal neg r =
            NumParse.val neg (digitsVal (r.takeWhile Char.isDigit))
              (digitsVal (r2.takeWhile Char.isDigit)) (r2.takeWhile Char.isDigit).length false 0 := by
          simp only [parseDecimal, hd]
          rw [if_pos trivial, if_neg hif]
          exact h
        exact ⟨_, _, _, hgoal⟩

/-- On digit-and-dot-only input the `Infinity` literal cannot occur. -/
lemma parseSigned_digitdot (neg : Bool) (r : List Char)
    (hr : ∀ c ∈ r, stripKeep c = true) :
    parseSigned neg r = .nan ∨ ∃ i f k, parseSigned neg r = .val neg i f k false 0 := by
  have hinf : r ≠ ['I', 'n', 'f', 'i', 'n', 'i', 't', 'y'] := by
    intro h
    have := hr 'I' (by rw [h]; simp)
    exact absurd this (by decide)
  simpa [parseSigned, hinf] using parseDecimal_digitdot neg r hr

/-- On digit-and-dot-only input no radix prefix can occur. -/
lemma parseUnsignedRadix_digitdot (t : List Char)
    (ht : ∀ c ∈ t, stripKeep c = true) :
    parseUnsignedRadix t = .nan ∨ ∃ i f k, parseUnsignedRadix t = .val false i f k false 0 := by
  match t with
  | [] => exact parseSigned_digitdot false [] ht
  | [c0] => exact parseSigned_digitdot false [c0] ht
  | c0 :: c :: r =>
    have hc := (stripKeep_iff c).mp (ht c (by simp))
    have hx : ¬(c = 'x' ∨ c = 'X') := by
      rintro (rfl | rfl) <;> rcases hc with hd | hdot <;> first
        | exact absurd hd (by decide)
        | exact absurd hdot (by decide)
    have ho : ¬(c = 'o' ∨ c = 'O') := by
      rintro (rfl | rfl) <;> rcases hc with hd | hdot <;> first
        | exact absurd hd (by decide)
        | exact absurd hdot (by decide)
    have hb : ¬(c = 'b' ∨ c = 'B') := by
      rintro (rfl | rfl) <;> rcases hc with hd | hdot <;> first
        | exact absurd hd (by decide)
        | exact absurd hdot (by decide)
    have := parseSigned_digitdot false (c0 :: c :: r) ht
    by_cases h0 : c0 = '0'
    · simpa [parseUnsignedRadix, h0, hx, ho, hb] using this
    · simpa [parseUnsignedRadix, h0] using this

/-- On digit-and-dot-only input `Number` returns `NaN` or a non-negative
finite value. -/
lemma jsNumberL_digitdot (l : List Char) (hl : ∀ c ∈ l, stripKeep c = true) :
    jsNumberL l = .nan ∨ ∃ q : ℚ, 0 ≤ q ∧ jsNumberL l = .fin q := by
  have htrim : trimWS l = l := trimWS_all_neg (fun c hc => stripKeep_not_ws c (hl c hc))
  cases l with
  | nil =>
    right
    refine ⟨0, le_refl 0, ?_⟩
    simp [jsNumberL, jsNumberCore, trimWS, interpNumParse]
  | cons c r =>
    have hc := (stripKeep_iff c).mp (hl c (by simp))
    have hplus : c ≠ '+' := by
      rintro rfl
      rcases hc with hd | hdot
      exacts [absurd hd (by decide), absurd hdot (by decide)]
    have hminus : c ≠ '-' := by
      rintro rfl
      rcases hc with hd | hdot
      exacts [absurd hd (by decide), absurd hdot (by decide)]
    have hcore : jsNumberCore (c :: r) = parseUnsignedRadix (c :: r) := by
      simp only [jsNumberCore, htrim]
      rw [if_neg hplus, if_neg hminus]
    rcases parseUnsignedRadix_digitdot (c :: r) hl with h | ⟨i, f, k, h⟩
    · left; simp [jsNumberL, hcore, h, interpNumParse]
    · right
      refine ⟨(i : ℚ) + (f : ℚ) / 10 ^ k, by positivity, ?_⟩
      simp [jsNumberL, hcore, h, interpNumParse]

/-- `parseRM` never raises and always returns `NaN` or a non-negative finite
amount. -/
lemma parseRM_cases (v : String) :
    parseRM v = .nan ∨ ∃ q : ℚ, 0 ≤ q ∧ parseRM v = .fin q := by
  by_cases hv : v = ""
  · right; exact ⟨0, le_refl 0, by simp [parseRM, hv]⟩
  · simpa [parseRM, hv] using
      jsNumberL_digitdot (v.data.filter stripKeep) (fun c hc => (List.mem_filter.mp hc).2)

/-! Helper lemmas about sums, sorting and membership in the breakdown. -/

/-- `NaN` absorbs on the left of `+`. -/
lemma jsAdd_nan_left (x : JSNum) : jsAdd .nan x = .nan := by cases x <;> rfl

/-- `NaN` absorbs on the right of `+`. -/
lemma jsAdd_nan_right (x : JSNum) : jsAdd x .nan = .nan := by cases x <;> rfl

/-- A fold of `+` from a `NaN` accumulator stays `NaN`. -/
lemma foldl_jsAdd_nan (l : List JSNum) : l.foldl jsAdd .nan = .nan := by
  induction l with
  | nil => rfl
  | cons x xs ih => rw [List.foldl_cons, jsAdd_nan_left, ih]

/-- A fold of `+` over a list containing `NaN` is `NaN`. -/
lemma foldl_jsAdd_nan_mem {l : List JSNum} (hx : JSNum.nan ∈ l) (acc : JSNum) :
    l.foldl jsAdd acc = .nan := by
  induction l generalizing acc with
  | nil => simp at hx
  | cons y ys ih =>
    rcases List.mem_cons.mp hx with h | h
    · rw [List.foldl_cons, ← h, jsAdd_nan_right, foldl_jsAdd_nan]
    · exact ih h _

/-- When the parsed total is finite, every amount in the mapping parsed to a
(non-negative) finite value. -/
lemma totalOf_mem_fin {b : BudgetMap} {t : ℚ} (ht : totalOf b = .fin t) :
    ∀ p ∈ b, ∃ a : ℚ, 0 ≤ a ∧ parseRM p.2 = .fin a := by
  intro p hp
  rcases parseRM_cases p.2 with h | ⟨a, ha, h⟩
  · exfalso
    have hmem : JSNum.nan ∈ b.map (fun p => parseRM p.2) := List.mem_map.mpr ⟨p, hp, h⟩
    rw [totalOf, foldl_jsAdd_nan_mem hmem] at ht
    exact JSNum.noConfusion ht
  · exact ⟨a, ha, h⟩

/-- A fold of `+` over `NaN`-or-finite values is `NaN` or finite. -/
lemma foldl_jsAdd_finOrNan {l : List JSNum}
    (hl : ∀ x ∈ l, x = .nan ∨ ∃ q, x = .fin q) (acc : JSNum)
    (hacc : acc = .nan ∨ ∃ q, acc = .fin q) :
    l.foldl jsAdd acc = .nan ∨ ∃ q, l.foldl jsAdd acc = .fin q := by
  induction l generalizing acc with
  | nil => exact hacc
  | cons y ys ih =>
    rw [List.foldl_cons]
    refine ih (fun x hx => hl x (by simp [hx])) _ ?_
    rcases hacc with rfl | ⟨qa, rfl⟩ <;> rcases hl y (by simp) with rfl | ⟨qy, rfl⟩
    · left; rfl
    · left; rfl
    · left; exact jsAdd_nan_right _
    · right; exact ⟨qa + qy, rfl⟩

/-- The parsed total is `NaN` or finite (never an infinity). -/
lemma totalOf_finOrNan (b : BudgetMap) : totalOf b = .nan ∨ ∃ t, totalOf b = .fin t := by
  refine foldl_jsAdd_finOrNan ?_ _ (Or.inr ⟨0, rfl⟩)
  intro x hx
  rcases List.mem_map.mp hx with ⟨p, hp, rfl⟩
  rcases parseRM_cases p.2 with h | ⟨q, _, h⟩
  exacts [Or.inl h, Or.inr ⟨q, h⟩]

/-- Membership in a stable insertion. -/
lemma mem_insertEntry {e x : BudgetEntry} {l : List BudgetEntry} :
    e ∈ insertEntry x l ↔ e = x ∨ e ∈ l := by
  induction l with
  | nil => simp [insertEntry]
  | cons y ys ih =>
    by_cases h : entryGt y x
    · simp only [insertEntry, h, if_true, List.mem_cons, ih]; tauto
    · simp [insertEntry, h]

/-- Sorting permutes, so membership is preserved. -/
lemma mem_sortEntries {e : BudgetEntry} {l : List BudgetEntry} :
    e ∈ sortEntries l ↔ e ∈ l := by
  induction l with
  | nil => simp [sortEntries]
  | cons x xs ih => simp [sortEntries, mem_insertEntry, ih]

/-- A member of the displayed breakdown comes from some mapping entry, the
total is not the finite zero, and its percent passed the `> 0` filter. -/
lemma mem_breakdown {b : BudgetMap} {e : BudgetEntry} (he : e ∈ breakdown b) :
    totalOf b ≠ .fin 0 ∧ ∃ p ∈ b, e = mkEntry (totalOf b) p ∧ jsGtZero e.percent = true := by
  by_cases h0 : totalOf b = .fin 0
  · rw [breakdown, if_pos h0] at he
    simp at he
  · refine ⟨h0, ?_⟩
    rw [breakdown, if_neg h0] at he
    have hmem := mem_sortEntries.mp he
    rw [displayedEntries] at hmem
    obtain ⟨hmap, hpos⟩ := List.mem_filter.mp hmem
    obtain ⟨p, hp, rfl⟩ := List.mem_map.mp hmap
    exact ⟨p, hp, rfl, hpos⟩

/-- The percent a displayed entry gets when both its amount and the total are
finite and the total is nonzero. -/
lemma percent_formula {t a : ℚ} (ht : t ≠ 0) :
    jsToFixed1 (jsMul (jsDiv (.fin a) (.fin t)) (.fin 100)) = .fin (round1 (a / t * 100)) := by
  simp [jsDiv, ht, jsMul, jsToFixed1]

/-! Evaluation helpers for concrete inputs. -/

/-- Evaluate `parseRM` through the kernel-computable parse core. -/
lemma parseRM_eval (v : String) (i f k : ℕ) (hv : ¬(v = ""))
    (h : jsNumberCore (v.data.filter stripKeep) = .val false i f k false 0) :
    parseRM v = .fin ((i : ℚ) + (f : ℚ) / 10 ^ k) := by
  simp [parseRM, hv, jsNumberL, h, interpNumParse]

/-- Evaluate `parseRM` on a whole-number amount string. -/
lemma parseRM_eval_nat (v : String) (n : ℕ) (hv : ¬(v = ""))
    (h : jsNumberCore (v.data.filter stripKeep) = .val false n 0 0 false 0) :
    parseRM v = .fin (n : ℚ) := by
  have := parseRM_eval v n 0 0 hv h
  simpa using this

/-- Evaluate `round1` from a floor bracket. -/
lemma round1_eval (q : ℚ) (n : ℤ) (h1 : (n : ℚ) ≤ q * 10 + 1 / 2)
    (h2 : q * 10 + 1 / 2 < n + 1) : round1 q = (n : ℚ) / 10 := by
  rw [round1, Int.floor_eq_iff.mpr ⟨h1, h2⟩]

/-- The floor appearing in `toLocaleString` on a whole number. -/
lemma floor_nat_mul_1000 (m : ℕ) : ⌊(m : ℚ) * 1000 + 1 / 2⌋ = (m * 1000 : ℕ) := by
  rw [Int.floor_eq_iff]
  push_cast
  constructor <;> linarith

/-- `toLocaleString` of a whole number via the computable renderer. -/
lemma toLocaleQ_nat (m : ℕ) : toLocaleQ (m : ℚ) = renderLocale (m * 1000) := by
  rw [toLocaleQ, if_neg (not_lt.mpr (by positivity)), floor_nat_mul_1000]
  norm_cast

/-- Evaluate one displayed entry from its parsed amount and the total. -/
lemma mkEntry_eval (t a : ℚ) (k v : String) (ht : t ≠ 0) (ha : parseRM v = .fin a) :
    mkEntry (.fin t) (k, v) =
      ⟨formatCategoryName k, "RM " ++ toLocaleQ a, .fin (round1 (a / t * 100)), colorOf k⟩ := by
  simp [mkEntry, ha, percent_formula ht, jsToLocale]

/-- C1: for every budget mapping whose parsed amounts sum to a total greater
than 0, each displayed entry is exactly the record built from one particular
mapping entry `(k, v)`: its name is that key's display name, its amount is
`RM ` plus the locale rendering of that entry's own parsed amount `a`, and
its percent is that same `a / total * 100` rounded to one decimal place;
when the total equals 0 the displayed breakdown sequence is empty (the
source returns before computing any percent). -/
theorem C1_breakdown_percent (b : BudgetMap) (t : ℚ) (ht : totalOf b = .fin t) :
    (0 < t → ∀ e ∈ breakdown b, ∃ k v a, (k, v) ∈ b ∧ parseRM v = .fin a ∧
      e = mkEntry (.fin t) (k, v) ∧ e.name = formatCategoryName k ∧
      e.amount = "RM " ++ toLocaleQ a ∧ e.percent = .fin (round1 (a / t * 100)))
    ∧ (t = 0 → breakdown b = []) := by
  constructor
  · intro htpos e he
    obtain ⟨h0, p, hp, rfl, hpos⟩ := mem_breakdown he
    obtain ⟨a, ha0, hpa⟩ := totalOf_mem_fin ht p hp
    refine ⟨p.1, p.2, a, by simpa using hp, hpa, ?_, ?_, ?_, ?_⟩
    · rw [ht]
    · simp [mkEntry]
    · simp [mkEntry, hpa, jsToLocale]
    · rw [ht]
      simp [mkEntry, hpa, percent_formula (ne_of_gt htpos)]
  · rintro rfl
    rw [breakdown, if_pos ht]

/-- Witness for C1 at the concrete mapping `talent: RM 50, crew: RM 50`
(total 100). -/
theorem C1_breakdown_percent_witness :
    (0 < (100 : ℚ) → ∀ e ∈ breakdown [("talent", "RM 50"), ("crew", "RM 50")],
      ∃ k v a, (k, v) ∈ ([("talent", "RM 50"), ("crew", "RM 50")] : BudgetMap) ∧
        parseRM v = .fin a ∧ e = mkEntry (.fin 100) (k, v) ∧
        e.name = formatCategoryName k ∧ e.amount = "RM " ++ toLocaleQ a ∧
        e.percent = .fin (round1 (a / 100 * 100)))
    ∧ ((100 : ℚ) = 0 → breakdown [("talent", "RM 50"), ("crew", "RM 50")] = []) := by
  refine C1_breakdown_percent [("talent", "RM 50"), ("crew", "RM 50")] 100 ?_
  have h1 : parseRM "RM 50" = .fin ((50 : ℕ) : ℚ) :=
    parseRM_eval_nat "RM 50" 50 (by decide) (by decide)
  simp [totalOf, h1, jsAdd]
  norm_num

/-- Positivity transfer into the percent filter. -/
lemma jsGtZero_fin_pos {q : ℚ} (h : 0 < q) : jsGtZero (.fin q) = true := by
  simp [jsGtZero, h]

/-- Concrete evaluation of the breakdown on the tied mapping
`crew: RM 100, talent: RM 100` (both percents 50, insertion order kept). -/
lemma breakdown_tie_eval :
    breakdown [("crew", "RM 100"), ("talent", "RM 100")] =
      [⟨"Crew", "RM 100", .fin 50, "#FF9900"⟩, ⟨"Talent", "RM 100", .fin 50, "#00C6FB"⟩] := by
  have hp : parseRM "RM 100" = .fin (100 : ℚ) := by
    have := parseRM_eval_nat "RM 100" 100 (by decide) (by decide)
    exact_mod_cast this
  have htot : totalOf [("crew", "RM 100"), ("talent", "RM 100")] = .fin 200 := by
    simp [totalOf, hp, jsAdd]
    norm_num
  have hr1 : round1 (100 / 200 * 100) = 50 := by
    rw [round1_eval (100 / 200 * 100 : ℚ) 500 (by norm_num) (by norm_num)]
    norm_num
  have hloc : toLocaleQ (100 : ℚ) = "100" := by
    have h := toLocaleQ_nat 100
    norm_cast at h
  have hmk1 : mkEntry (.fin 200) ("crew", "RM 100") =
      (⟨"Crew", "RM 100", .fin 50, "#FF9900"⟩ : BudgetEntry) := by
    rw [mkEntry_eval 200 100 "crew" "RM 100" (by norm_num) hp, hr1, hloc]
    refine BudgetEntry.mk.injEq .. ▸ ?_
    exact ⟨by decide, by decide, rfl, by decide⟩
  have hmk2 : mkEntry (.fin 200) ("talent", "RM 100") =
      (⟨"Talent", "RM 100", .fin 50, "#00C6FB"⟩ : BudgetEntry) := by
    rw [mkEntry_eval 200 100 "talent" "RM 100" (by norm_num) hp, hr1, hloc]
    exact BudgetEntry.mk.injEq .. ▸ ⟨by decide, by decide, rfl, by decide⟩
  have hne : totalOf [("crew", "RM 100"), ("talent", "RM 100")] ≠ .fin 0 := by
    rw [htot]
    simp only [ne_eq, JSNum.fin.injEq]
    norm_num
  have hgt : entryGt (⟨"Talent", "RM 100", .fin 50, "#00C6FB"⟩ : BudgetEntry)
      (⟨"Crew", "RM 100", .fin 50, "#FF9900"⟩ : BudgetEntry) = false := by
    simp [entryGt]
  rw [breakdown, if_neg hne, displayedEntries, htot]
  simp only [List.map_cons, List.map_nil, hmk1, hmk2]
  rw [List.filter_cons_of_pos (by exact jsGtZero_fin_pos (by norm_num)),
    List.filter_cons_of_pos (by exact jsGtZero_fin_pos (by norm_num)),
    List.filter_nil]
  simp [sortEntries, insertEntry, hgt]

/-- C4: every category whose computed percent is 0 is absent from the
displayed breakdown (each displayed entry has percent strictly greater than
0, so never the percent 0), and computing the breakdown is a pure read: the
underlying budget mapping comes back unchanged, zero categories included. -/
theorem C4_zero_excluded_frame (ob : Option BudgetMap) :
    (breakdownCompute ob).2 = ob ∧
      ∀ e ∈ (breakdownCompute ob).1, jsGtZero e.percent = true ∧ e.percent ≠ .fin 0 := by
  refine ⟨rfl, ?_⟩
  intro e he
  have he' : e ∈ breakdownOf ob := he
  cases ob with
  | none => simp [breakdownOf] at he'
  | some b =>
    obtain ⟨-, p, hp, rfl, hpos⟩ := mem_breakdown he'
    refine ⟨hpos, fun hzero => ?_⟩
    rw [hzero] at hpos
    simp [jsGtZero] at hpos

/-- Witness for C4 at the tied two-category mapping: the state is returned
unchanged and the displayed crew entry has a nonzero percent. -/
theorem C4_zero_excluded_frame_witness :
    ((breakdownCompute (some [("crew", "RM 100"), ("talent", "RM 100")])).2 =
        some [("crew", "RM 100"), ("talent", "RM 100")]) ∧
      (jsGtZero (BudgetEntry.mk "Crew" "RM 100" (.fin 50) "#FF9900").percent = true ∧
        (BudgetEntry.mk "Crew" "RM 100" (.fin 50) "#FF9900").percent ≠ .fin 0) := by
  refine ⟨(C4_zero_excluded_frame _).1,
    (C4_zero_excluded_frame (some [("crew", "RM 100"), ("talent", "RM 100")])).2 _ ?_⟩
  show _ ∈ breakdownOf (some [("crew", "RM 100"), ("talent", "RM 100")])
  rw [breakdownOf, breakdown_tie_eval]
  simp

/-! Sortedness and stability of the display order. -/

/-- `NaN` divisor absorbs. -/
lemma jsDiv_nan_right (x : JSNum) : jsDiv x .nan = .nan := by cases x <;> rfl

/-- `NaN` factor absorbs. -/
lemma jsMul_nan_left (x : JSNum) : jsMul .nan x = .nan := by cases x <;> rfl

/-- The comparator is asymmetric. -/
lemma entryGt_asymm {x y : BudgetEntry} (h : entryGt x y = true) : entryGt y x = false := by
  cases hx : x.percent <;> cases hy : y.percent <;> simp_all [entryGt]
  linarith

/-- Failing to be strictly above is transitive on finite percents. -/
lemma entryGt_false_trans {x y z : BudgetEntry}
    (hx : ∃ q, x.percent = .fin q) (hy : ∃ q, y.percent = .fin q)
    (hz : ∃ q, z.percent = .fin q)
    (h1 : entryGt y x = false) (h2 : entryGt z y = false) : entryGt z x = false := by
  obtain ⟨a, ha⟩ := hx
  obtain ⟨b, hb⟩ := hy
  obtain ⟨c, hc⟩ := hz
  unfold entryGt at h1 h2 ⊢
  rw [ha, hb] at h1
  rw [hb, hc] at h2
  rw [ha, hc]
  simp only [decide_eq_false_iff_not] at h1 h2 ⊢
  intro hlt
  exact h1 (by linarith [not_lt.mp h2])

/-- Inserting into a descending-pairwise list of finite-percent entries keeps
it descending-pairwise. -/
lemma pairwise_insertEntry {x : BudgetEntry} {l : List BudgetEntry}
    (hfin : ∀ e ∈ x :: l, ∃ q, e.percent = .fin q)
    (h : l.Pairwise fun a c => entryGt c a = false) :
    (insertEntry x l).Pairwise fun a c => entryGt c a = false := by
  induction l with
  | nil => simp [insertEntry]
  | cons y ys ih =>
    have hfin' : ∀ e ∈ x :: ys, ∃ q, e.percent = .fin q := by
      intro e he
      rcases List.mem_cons.mp he with rfl | hm
      · exact hfin e (by simp)
      · exact hfin e (by simp [hm])
    obtain ⟨hy_rel, hys⟩ := List.pairwise_cons.mp h
    by_cases hc : entryGt y x
    · rw [insertEntry, if_pos hc]
      refine List.pairwise_cons.mpr ⟨?_, ih hfin' hys⟩
      intro c hcmem
      rcases mem_insertEntry.mp hcmem with rfl | hcm
      · exact entryGt_asymm hc
      · exact hy_rel c hcm
    · rw [insertEntry, if_neg hc]
      refine List.pairwise_cons.mpr ⟨?_, h⟩
      intro c hcmem
      rcases List.mem_cons.mp hcmem with rfl | hcm
      · simpa using hc
      · exact entryGt_false_trans (hfin x (by simp)) (hfin y (by simp))
          (hfin c (by simp [hcm])) (by simpa using hc) (hy_rel c hcm)

/-- The stable sort leaves the output descending-pairwise whenever all
percents are finite. -/
lemma sortEntries_pairwise (l : List BudgetEntry)
    (hfin : ∀ e ∈ l, ∃ q, e.percent = .fin q) :
    (sortEntries l).Pairwise fun a c => entryGt c a = false := by
  induction l with
  | nil => simp [sortEntries]
  | cons x xs ih =>
    rw [sortEntries]
    refine pairwise_insertEntry ?_ (ih fun e he => hfin e (by simp [he]))
    intro e he
    rcases List.mem_cons.mp he with rfl | hm
    · exact hfin e (by simp)
    · exact hfin e (by simp [mem_sortEntries.mp hm])

/-- Stability at one insertion: the entries holding any fixed finite percent
`p` are exactly the ones from the unsorted list, in the same order, with `x`
in front exactly when it has percent `p` (everything inserted before `x` is
strictly above `x`, hence not at `p`). -/
lemma filter_insertEntry (x : BudgetEntry) (l : List BudgetEntry) (p : ℚ) :
    (insertEntry x l).filter (fun e => decide (e.percent = .fin p)) =
      if x.percent = .fin p then
        x :: l.filter (fun e => decide (e.percent = .fin p))
      else l.filter (fun e => decide (e.percent = .fin p)) := by
  induction l with
  | nil =>
    by_cases h : x.percent = .fin p <;> simp [insertEntry, List.filter, h]
  | cons y ys ih =>
    by_cases hc : entryGt y x
    · rw [insertEntry, if_pos hc, List.filter_cons, ih]
      by_cases hxp : x.percent = .fin p
      · have hyne : ¬(y.percent = .fin p) := by
          intro hy
          have hfalse : entryGt y x = false := by simp [entryGt, hy, hxp]
          simp [hfalse] at hc
        simp [List.filter_cons, hxp, hyne]
      · simp [List.filter_cons, hxp]
    · rw [insertEntry, if_neg hc]
      by_cases hxp : x.percent = .fin p <;> simp [List.filter_cons, hxp]

/-- Stability of the whole sort: for any fixed finite percent, sorting does
not reorder the entries holding it. -/
lemma filter_sortEntries (l : List BudgetEntry) (p : ℚ) :
    (sortEntries l).filter (fun e => decide (e.percent = .fin p)) =
      l.filter (fun e => decide (e.percent = .fin p)) := by
  induction l with
  | nil => rfl
  | cons x xs ih =>
    rw [sortEntries, filter_insertEntry]
    by_cases hxp : x.percent = .fin p <;> simp [List.filter_cons, hxp, ih]

/-- With a nonzero finite (or `NaN`) total, every entry surviving the filter
has a strictly positive finite percent. -/
lemma displayedEntries_fin {b : BudgetMap} (h0 : totalOf b ≠ .fin 0) :
    ∀ e ∈ displayedEntries b, ∃ q, e.percent = .fin q ∧ 0 < q := by
  intro e he
  rw [displayedEntries] at he
  obtain ⟨hmap, hpos⟩ := List.mem_filter.mp he
  obtain ⟨p, hp, rfl⟩ := List.mem_map.mp hmap
  rcases totalOf_finOrNan b with ht | ⟨t, ht⟩
  · exfalso
    have : (mkEntry (totalOf b) p).percent = .nan := by
      rcases parseRM_cases p.2 with ha | ⟨a, -, ha⟩ <;>
        simp [mkEntry, ha, ht, jsDiv, jsMul_nan_left, jsToFixed1]
    rw [this] at hpos
    simp [jsGtZero] at hpos
  · have htne : t ≠ 0 := fun h => h0 (h ▸ ht)
    rcases parseRM_cases p.2 with ha | ⟨a, -, ha⟩
    · exfalso
      have : (mkEntry (totalOf b) p).percent = .nan := by
        simp [mkEntry, ha, ht, jsDiv, jsMul_nan_left, jsToFixed1]
      rw [this] at hpos
      simp [jsGtZero] at hpos
    · have hper : (mkEntry (totalOf b) p).percent = .fin (round1 (a / t * 100)) := by
        rw [ht]
        simp [mkEntry, ha, percent_formula htne]
      refine ⟨round1 (a / t * 100), hper, ?_⟩
      rw [hper] at hpos
      simpa [jsGtZero] using hpos

/-- When the total is the finite zero, every entry surviving the filter has
percent `Infinity` (a positive amount divided by zero). -/
lemma displayedEntries_total0 {b : BudgetMap} (h0 : totalOf b = .fin 0) :
    ∀ e ∈ displayedEntries b, e.percent = .inf := by
  intro e he
  rw [displayedEntries] at he
  obtain ⟨hmap, hpos⟩ := List.mem_filter.mp he
  obtain ⟨p, hp, rfl⟩ := List.mem_map.mp hmap
  rcases parseRM_cases p.2 with ha | ⟨a, ha0, ha⟩
  · exfalso
    have : (mkEntry (totalOf b) p).percent = .nan := by
      simp [mkEntry, ha, h0, jsDiv, jsMul_nan_left, jsToFixed1]
    rw [this] at hpos
    simp [jsGtZero] at hpos
  · rcases eq_or_lt_of_le ha0 with hz | hpos'
    · exfalso
      have : (mkEntry (totalOf b) p).percent = .nan := by
        simp [mkEntry, ha, h0, jsDiv, ← hz, jsMul_nan_left, jsToFixed1]
      rw [this] at hpos
      simp [jsGtZero] at hpos
    · simp [mkEntry, ha, h0, jsDiv, ne_of_gt hpos', hpos', jsMul, jsToFixed1]

/-- The fixed seven-category enumeration order named by the specification
(the order of the keys in the source's `categoryColors` / name map). -/
def fixedCategoryOrder : List String :=
  ["talent", "location", "propsSet", "wardrobeMakeup", "sfxVfx", "crew", "miscellaneous"]

/-- C3 counterexample: in the mapping `crew: RM 100, talent: RM 100` the two
categories tie at percent 50 and display as crew before talent — the
mapping's insertion order — although the fixed enumeration order lists talent
before crew.  The claim's fixed-order tie-break is therefore false. -/
theorem C3_counterexample :
    (breakdown [("crew", "RM 100"), ("talent", "RM 100")]).map BudgetEntry.name =
        ["Crew", "Talent"] ∧
      (breakdown [("crew", "RM 100"), ("talent", "RM 100")]).map BudgetEntry.percent =
        [.fin 50, .fin 50] ∧
      List.indexOf "talent" fixedCategoryOrder < List.indexOf "crew" fixedCategoryOrder := by
  refine ⟨?_, ?_, by decide⟩
  · rw [breakdown_tie_eval]; rfl
  · rw [breakdown_tie_eval]; rfl

/-- C3 amended: the displayed sequence is sorted by descending percent, and
categories with equal percent appear in the order their keys occur in the
budget mapping itself (JavaScript's stable sort over object insertion order),
not in the fixed seven-category enumeration order. -/
theorem C3_sorted_stable (b : BudgetMap) :
    ((breakdown b).Pairwise fun a c => entryGt c a = false) ∧
      ∀ p : ℚ, (breakdown b).filter (fun e => decide (e.percent = .fin p)) =
        (displayedEntries b).filter (fun e => decide (e.percent = .fin p)) := by
  by_cases h0 : totalOf b = .fin 0
  · constructor
    · rw [breakdown, if_pos h0]
      exact List.Pairwise.nil
    · intro p
      rw [breakdown, if_pos h0, List.filter_nil]
      symm
      rw [List.filter_eq_nil_iff]
      intro e he
      rw [displayedEntries_total0 h0 e he]
      simp
  · constructor
    · rw [breakdown, if_neg h0]
      refine sortEntries_pairwise _ fun e he => ?_
      obtain ⟨q, hq, -⟩ := displayedEntries_fin h0 e he
      exact ⟨q, hq⟩
    · intro p
      rw [breakdown, if_neg h0]
      exact filter_sortEntries _ p

/-- C5 counterexample: the string `1.2.3` strips to itself, `Number` of a
two-dot numeral is `NaN`, and the parser returns `NaN` — not the amount 0
the claim promises for every unparsable string, and not a non-negative
numeric amount. -/
theorem C5_counterexample :
    parseRM "1.2.3" = JSNum.nan ∧ JSNum.nan ≠ JSNum.fin 0 := by
  constructor
  · decide
  · simp

/-- C5 amended: the parser strips every character other than digits and the
decimal point and never raises; the result is `NaN` (not 0) when the
stripped residue is still not a valid decimal numeral (for example two dots),
and otherwise a non-negative finite amount; residues that strip to the empty
string, such as `TBD`, give 0. -/
theorem C5_parse_amended :
    (∀ s : String, parseRM s = .nan ∨ ∃ q : ℚ, 0 ≤ q ∧ parseRM s = .fin q) ∧
      parseRM "TBD" = .fin 0 := by
  refine ⟨parseRM_cases, ?_⟩
  have h := parseRM_eval_nat "TBD" 0 (by decide) (by decide)
  simpa using h

/-- C2: the specification's worked example.  On the mapping
`talent: RM 400, crew: RM 900, propsSet: RM 530, location: RM 300` the total
is 2130, the percents are talent 18.8, crew 42.3, propsSet 24.9,
location 14.1, and the display order is crew, propsSet, talent, location. -/
theorem C2_concrete_breakdown :
    totalOf [("talent", "RM 400"), ("crew", "RM 900"),
        ("propsSet", "RM 530"), ("location", "RM 300")] = .fin 2130 ∧
      breakdown [("talent", "RM 400"), ("crew", "RM 900"),
          ("propsSet", "RM 530"), ("location", "RM 300")] =
        [⟨"Crew", "RM 900", .fin 42.3, "#FF9900"⟩,
         ⟨"Props & Set", "RM 530", .fin 24.9, "#3DD65B"⟩,
         ⟨"Talent", "RM 400", .fin 18.8, "#00C6FB"⟩,
         ⟨"Location", "RM 300", .fin 14.1, "#FFD233"⟩] := by
  have hp400 : parseRM "RM 400" = .fin (400 : ℚ) := by
    have := parseRM_eval_nat "RM 400" 400 (by decide) (by decide)
    exact_mod_cast this
  have hp900 : parseRM "RM 900" = .fin (900 : ℚ) := by
    have := parseRM_eval_nat "RM 900" 900 (by decide) (by decide)
    exact_mod_cast this
  have hp530 : parseRM "RM 530" = .fin (530 : ℚ) := by
    have := parseRM_eval_nat "RM 530" 530 (by decide) (by decide)
    exact_mod_cast this
  have hp300 : parseRM "RM 300" = .fin (300 : ℚ) := by
    have := parseRM_eval_nat "RM 300" 300 (by decide) (by decide)
    exact_mod_cast this
  have htot : totalOf [("talent", "RM 400"), ("crew", "RM 900"),
      ("propsSet", "RM 530"), ("location", "RM 300")] = .fin 2130 := by
    simp [totalOf, hp400, hp900, hp530, hp300, jsAdd]
    norm_num
  refine ⟨htot, ?_⟩
  have hl400 : toLocaleQ (400 : ℚ) = "400" := by
    have h := toLocaleQ_nat 400
    norm_cast at h
  have hl900 : toLocaleQ (900 : ℚ) = "900" := by
    have h := toLocaleQ_nat 900
    norm_cast at h
  have hl530 : toLocaleQ (530 : ℚ) = "530" := by
    have h := toLocaleQ_nat 530
    norm_cast at h
  have hl300 : toLocaleQ (300 : ℚ) = "300" := by
    have h := toLocaleQ_nat 300
    norm_cast at h
  have hr400 : round1 (400 / 2130 * 100) = 18.8 := by
    rw [round1_eval (400 / 2130 * 100 : ℚ) 188 (by norm_num) (by norm_num)]
    norm_num
  have hr900 : round1 (900 / 2130 * 100) = 42.3 := by
    rw [round1_eval (900 / 2130 * 100 : ℚ) 423 (by norm_num) (by norm_num)]
    norm_num
  have hr530 : round1 (530 / 2130 * 100) = 24.9 := by
    rw [round1_eval (530 / 2130 * 100 : ℚ) 249 (by norm_num) (by norm_num)]
    norm_num
  have hr300 : round1 (300 / 2130 * 100) = 14.1 := by
    rw [round1_eval (300 / 2130 * 100 : ℚ) 141 (by norm_num) (by norm_num)]
    norm_num
  have hmkT : mkEntry (.fin 2130) ("talent", "RM 400") =
      (⟨"Talent", "RM 400", .fin 18.8, "#00C6FB"⟩ : BudgetEntry) := by
    rw [mkEntry_eval 2130 400 "talent" "RM 400" (by norm_num) hp400, hr400, hl400]
    exact BudgetEntry.mk.injEq .. ▸ ⟨by decide, by decide, rfl, by decide⟩
  have hmkC : mkEntry (.fin 2130) ("crew", "RM 900") =
      (⟨"Crew", "RM 900", .fin 42.3, "#FF9900"⟩ : BudgetEntry) := by
    rw [mkEntry_eval 2130 900 "crew" "RM 900" (by norm_num) hp900, hr900, hl900]
    exact BudgetEntry.mk.injEq .. ▸ ⟨by decide, by decide, rfl, by decide⟩
  have hmkP : mkEntry (.fin 2130) ("propsSet", "RM 530") =
      (⟨"Props & Set", "RM 530", .fin 24.9, "#3DD65B"⟩ : BudgetEntry) := by
    rw [mkEntry_eval 2130 530 "propsSet" "RM 530" (by norm_num) hp530, hr530, hl530]
    exact BudgetEntry.mk.injEq .. ▸ ⟨by decide, by decide, rfl, by decide⟩
  have hmkL : mkEntry (.fin 2130) ("location", "RM 300") =
      (⟨"Location", "RM 300", .fin 14.1, "#FFD233"⟩ : BudgetEntry) := by
    rw [mkEntry_eval 2130 300 "location" "RM 300" (by norm_num) hp300, hr300, hl300]
    exact BudgetEntry.mk.injEq .. ▸ ⟨by decide, by decide, rfl, by decide⟩
  have hne : totalOf [("talent", "RM 400"), ("crew", "RM 900"),
      ("propsSet", "RM 530"), ("location", "RM 300")] ≠ .fin 0 := by
    rw [htot]
    simp only [ne_eq, JSNum.fin.injEq]
    norm_num
  rw [breakdown, if_neg hne, displayedEntries, htot]
  simp only [List.map_cons, List.map_nil, hmkT, hmkC, hmkP, hmkL]
  have hfil : List.filter (fun e => jsGtZero e.percent)
      [(⟨"Talent", "RM 400", .fin 18.8, "#00C6FB"⟩ : BudgetEntry),
        ⟨"Crew", "RM 900", .fin 42.3, "#FF9900"⟩,
        ⟨"Props & Set", "RM 530", .fin 24.9, "#3DD65B"⟩,
        ⟨"Location", "RM 300", .fin 14.1, "#FFD233"⟩] =
      [⟨"Talent", "RM 400", .fin 18.8, "#00C6FB"⟩,
        ⟨"Crew", "RM 900", .fin 42.3, "#FF9900"⟩,
        ⟨"Props & Set", "RM 530", .fin 24.9, "#3DD65B"⟩,
        ⟨"Location", "RM 300", .fin 14.1, "#FFD233"⟩] := by
    simp only [List.filter_cons, List.filter_nil]
    norm_num [jsGtZero]
  rw [hfil]
  have gLP : entryGt (⟨"Location", "RM 300", .fin 14.1, "#FFD233"⟩ : BudgetEntry)
      (⟨"Props & Set", "RM 530", .fin 24.9, "#3DD65B"⟩ : BudgetEntry) = false := by
    simp [entryGt]
    norm_num
  have gPC : entryGt (⟨"Props & Set", "RM 530", .fin 24.9, "#3DD65B"⟩ : BudgetEntry)
      (⟨"Crew", "RM 900", .fin 42.3, "#FF9900"⟩ : BudgetEntry) = false := by
    simp [entryGt]
    norm_num
  have gCT : entryGt (⟨"Crew", "RM 900", .fin 42.3, "#FF9900"⟩ : BudgetEntry)
      (⟨"Talent", "RM 400", .fin 18.8, "#00C6FB"⟩ : BudgetEntry) = true := by
    simp [entryGt]
    norm_num
  have gPT : entryGt (⟨"Props & Set", "RM 530", .fin 24.9, "#3DD65B"⟩ : BudgetEntry)
      (⟨"Talent", "RM 400", .fin 18.8, "#00C6FB"⟩ : BudgetEntry) = true := by
    simp [entryGt]
    norm_num
  have gLT : entryGt (⟨"Location", "RM 300", .fin 14.1, "#FFD233"⟩ : BudgetEntry)
      (⟨"Talent", "RM 400", .fin 18.8, "#00C6FB"⟩ : BudgetEntry) = false := by
    simp [entryGt]
    norm_num
  rw [sortEntries, sortEntries, sortEntries, sortEntries, sortEntries]
  rw [show insertEntry (⟨"Location", "RM 300", .fin 14.1, "#FFD233"⟩ : BudgetEntry) [] =
    [⟨"Location", "RM 300", .fin 14.1, "#FFD233"⟩] from rfl]
  rw [insertEntry, if_neg (by rw [gLP]; simp)]
  rw [insertEntry, if_neg (by rw [gPC]; simp)]
  rw [insertEntry, if_pos gCT, insertEntry, if_pos gPT, insertEntry,
    if_neg (by rw [gLT]; simp)]

/-- Concrete evaluation of the breakdown on `talent: RM 1500, crew: RM 500`:
the talent amount is re-rendered with a thousands separator. -/
lemma breakdown_grouped_eval :
    breakdown [("talent", "RM 1500"), ("crew", "RM 500")] =
      [⟨"Talent", "RM 1,500", .fin 75, "#00C6FB"⟩,
       ⟨"Crew", "RM 500", .fin 25, "#FF9900"⟩] := by
  have hp1 : parseRM "RM 1500" = .fin (1500 : ℚ) := by
    have := parseRM_eval_nat "RM 1500" 1500 (by decide) (by decide)
    exact_mod_cast this
  have hp2 : parseRM "RM 500" = .fin (500 : ℚ) := by
    have := parseRM_eval_nat "RM 500" 500 (by decide) (by decide)
    exact_mod_cast this
  have htot : totalOf [("talent", "RM 1500"), ("crew", "RM 500")] = .fin 2000 := by
    simp [totalOf, hp1, hp2, jsAdd]
    norm_num
  have hl1 : toLocaleQ (1500 : ℚ) = "1,500" := by
    have h := toLocaleQ_nat 1500
    norm_cast at h
  have hl2 : toLocaleQ (500 : ℚ) = "500" := by
    have h := toLocaleQ_nat 500
    norm_cast at h
  have hr1 : round1 (1500 / 2000 * 100) = 75 := by
    rw [round1_eval (1500 / 2000 * 100 : ℚ) 750 (by norm_num) (by norm_num)]
    norm_num
  have hr2 : round1 (500 / 2000 * 100) = 25 := by
    rw [round1_eval (500 / 2000 * 100 : ℚ) 250 (by norm_num) (by norm_num)]
    norm_num
  have hmk1 : mkEntry (.fin 2000) ("talent", "RM 1500") =
      (⟨"Talent", "RM 1,500", .fin 75, "#00C6FB"⟩ : BudgetEntry) := by
    rw [mkEntry_eval 2000 1500 "talent" "RM 1500" (by norm_num) hp1, hr1, hl1]
    exact BudgetEntry.mk.injEq .. ▸ ⟨by decide, by decide, rfl, by decide⟩
  have hmk2 : mkEntry (.fin 2000) ("crew", "RM 500") =
      (⟨"Crew", "RM 500", .fin 25, "#FF9900"⟩ : BudgetEntry) := by
    rw [mkEntry_eval 2000 500 "crew" "RM 500" (by norm_num) hp2, hr2, hl2]
    exact BudgetEntry.mk.injEq .. ▸ ⟨by decide, by decide, rfl, by decide⟩
  have hne : totalOf [("talent", "RM 1500"), ("crew", "RM 500")] ≠ .fin 0 := by
    rw [htot]
    simp only [ne_eq, JSNum.fin.injEq]
    norm_num
  have hgt : entryGt (⟨"Crew", "RM 500", .fin 25, "#FF9900"⟩ : BudgetEntry)
      (⟨"Talent", "RM 1,500", .fin 75, "#00C6FB"⟩ : BudgetEntry) = false := by
    simp [entryGt]
    norm_num
  rw [breakdown, if_neg hne, displayedEntries, htot]
  simp only [List.map_cons, List.map_nil, hmk1, hmk2]
  have hfil : List.filter (fun e => jsGtZero e.percent)
      [(⟨"Talent", "RM 1,500", .fin 75, "#00C6FB"⟩ : BudgetEntry),
        ⟨"Crew", "RM 500", .fin 25, "#FF9900"⟩] =
      [⟨"Talent", "RM 1,500", .fin 75, "#00C6FB"⟩, ⟨"Crew", "RM 500", .fin 25, "#FF9900"⟩] := by
    simp only [List.filter_cons, List.filter_nil]
    norm_num [jsGtZero]
  rw [hfil]
  rw [sortEntries, sortEntries, sortEntries]
  rw [show insertEntry (⟨"Crew", "RM 500", .fin 25, "#FF9900"⟩ : BudgetEntry) [] =
    [⟨"Crew", "RM 500", .fin 25, "#FF9900"⟩] from rfl]
  rw [insertEntry, if_neg (by rw [hgt]; simp)]

/-- The claim's notion of a plain currency numeral: after the prefix, only
one run of digits, optionally a single dot with digits on both sides. -/
def isPlainNumeral (l : List Char) : Bool :=
  match splitOnChar '.' l with
  | [d] => d ≠ [] ∧ d.all Char.isDigit
  | [a, b] => a ≠ [] ∧ b ≠ [] ∧ a.all Char.isDigit ∧ b.all Char.isDigit
  | _ => false

/-- The claim's rendered-currency contract: exactly `RM `, then a plain
integer or decimal numeral, nothing else. -/
def isPlainRM (s : String) : Bool :=
  match s.data with
  | c1 :: c2 :: c3 :: rest => c1 = 'R' ∧ c2 = 'M' ∧ c3 = ' ' ∧ isPlainNumeral rest
  | _ => false

/-- C6 counterexample: on the mapping `talent: RM 1500, crew: RM 500` the
breakdown renders the talent amount as `RM 1,500` — `toLocaleString` inserts
a thousands separator, so the rendered string is not `RM ` followed by a
plain integer or decimal numeral. -/
theorem C6_counterexample :
    (breakdown [("talent", "RM 1500"), ("crew", "RM 500")]).map BudgetEntry.amount =
        ["RM 1,500", "RM 500"] ∧
      isPlainRM "RM 1,500" = false := by
  refine ⟨?_, by decide⟩
  rw [breakdown_grouped_eval]
  rfl

/-! Digit-string lemmas for the amended rendering contract. -/

/-- Digit characters are decimal digits and not the dot. -/
lemma digitChar_lt10 {d : ℕ} (h : d < 10) :
    (digitChar d).isDigit = true ∧ digitChar d ≠ '.' := by
  interval_cases d <;> exact ⟨by decide, by decide⟩

/-- All digits produced by the fuelled extractor are below 10. -/
lemma digitsRevAux_lt10 (fuel : ℕ) : ∀ n, ∀ d ∈ digitsRevAux fuel n, d < 10 := by
  induction fuel with
  | zero => intro n d hd; simp [digitsRevAux] at hd
  | succ f ih =>
    intro n d hd
    rw [digitsRevAux] at hd
    by_cases hn : n = 0
    · simp [hn] at hd
    · rw [if_neg hn] at hd
      rcases List.mem_cons.mp hd with rfl | hmem
      · exact Nat.mod_lt _ (by norm_num)
      · exact ih _ d hmem

/-- All decimal digits of a natural number are below 10. -/
lemma natDigitsRev_lt10 (n : ℕ) : ∀ d ∈ natDigitsRev n, d < 10 := by
  intro d hd
  rw [natDigitsRev] at hd
  by_cases hn : n = 0
  · rw [if_pos hn] at hd
    simp at hd
    omega
  · rw [if_neg hn] at hd
    exact digitsRevAux_lt10 _ _ d hd

/-- A natural number has at least one digit. -/
lemma natDigitsRev_ne_nil (n : ℕ) : natDigitsRev n ≠ [] := by
  rw [natDigitsRev]
  by_cases hn : n = 0
  · simp [hn]
  · rw [if_neg hn, digitsRevAux, if_neg hn]
    simp

/-- The plain rendering of a natural number is a nonempty string of digit
characters, none of them a dot. -/
lemma natPlain_spec (n : ℕ) :
    (natPlain n).data ≠ [] ∧ ∀ c ∈ (natPlain n).data, c.isDigit = true ∧ c ≠ '.' := by
  constructor
  · show (natDigitsRev n).reverse.map digitChar ≠ []
    simp [natDigitsRev_ne_nil n]
  · intro c hc
    obtain ⟨d, hd, rfl⟩ := List.mem_map.mp hc
    exact digitChar_lt10 (natDigitsRev_lt10 n d (List.mem_reverse.mp hd))

/-- The padded fraction rendering consists of digit characters only and is
nonempty when at least one fraction digit is requested. -/
lemma padDigits_spec (k fp : ℕ) (hk : k ≠ 0) :
    (padDigits k fp).data ≠ [] ∧ ∀ c ∈ (padDigits k fp).data, c.isDigit = true ∧ c ≠ '.' := by
  constructor
  · show (List.range k).map _ ≠ []
    simp [hk, List.range_eq_nil]
  · intro c hc
    obtain ⟨i, hi, rfl⟩ := List.mem_map.mp hc
    exact digitChar_lt10 (Nat.mod_lt _ (by norm_num))

/-- Splitting a separator-free list yields the single segment. -/
lemma splitOnChar_no_sep {sep : Char} {l : List Char} (h : ∀ c ∈ l, c ≠ sep) :
    splitOnChar sep l = [l] := by
  induction l with
  | nil => rfl
  | cons c cs ih =>
    rw [splitOnChar]
    rw [if_neg (h c (by simp)), ih (fun x hx => h x (by simp [hx]))]

/-- Splitting at the first separator peels off the separator-free prefix. -/
lemma splitOnChar_append_sep {sep : Char} {A B : List Char} (hA : ∀ c ∈ A, c ≠ sep) :
    splitOnChar sep (A ++ sep :: B) = A :: splitOnChar sep B := by
  induction A with
  | nil => simp [splitOnChar]
  | cons a A' ih =>
    rw [List.cons_append, splitOnChar, if_neg (hA a (by simp)),
      ih (fun x hx => hA x (by simp [hx]))]

/-- `NaN` numerator absorbs. -/
lemma jsDiv_nan_left (x : JSNum) : jsDiv .nan x = .nan := by cases x <;> rfl

/-- A separator-free nonempty digit run is a plain numeral. -/
lemma isPlainNumeral_single {l : List Char} (hne : l ≠ [])
    (hd : ∀ c ∈ l, c.isDigit = true ∧ c ≠ '.') : isPlainNumeral l = true := by
  rw [isPlainNumeral, splitOnChar_no_sep (fun c hc => (hd c hc).2)]
  simp only [Bool.decide_and, Bool.and_eq_true, decide_eq_true_eq, List.all_eq_true]
  exact ⟨hne, fun c hc => (hd c hc).1⟩

/-- Digits, one dot, digits: a plain decimal numeral. -/
lemma isPlainNumeral_pair {A B : List Char} (hAne : A ≠ []) (hBne : B ≠ [])
    (hdA : ∀ c ∈ A, c.isDigit = true ∧ c ≠ '.')
    (hdB : ∀ c ∈ B, c.isDigit = true ∧ c ≠ '.') :
    isPlainNumeral (A ++ '.' :: B) = true := by
  rw [isPlainNumeral, splitOnChar_append_sep (fun c hc => (hdA c hc).2),
    splitOnChar_no_sep (fun c hc => (hdB c hc).2)]
  simp only [Bool.decide_and, Bool.and_eq_true, decide_eq_true_eq, List.all_eq_true]
  exact ⟨hAne, hBne, fun c hc => (hdA c hc).1, fun c hc => (hdB c hc).1⟩

/-- `RM ` followed by a plain numeral satisfies the rendered-currency
contract. -/
lemma isPlainRM_RM {X : String} (h : isPlainNumeral X.data = true) :
    isPlainRM ("RM " ++ X) = true := by
  have hdata : ("RM " ++ X).data = 'R' :: 'M' :: ' ' :: X.data := by
    rw [String.data_append, show "RM ".data = ['R', 'M', ' '] from by decide]
    rfl
  simp only [isPlainRM, hdata, h]
  simp

/-- Unfold a positive `plainDecimal` verdict: the exact expansion exists and
the decimal point position lies inside the positional window. -/
lemma plainDecimal_elim {q : ℚ} (h : plainDecimal q = true) :
    ∃ k, decExpSearch q = some k ∧
      ((natDigitsRev ((q * (10 : ℚ) ^ k).num.toNat)).length : ℤ) - k ≤ 21 ∧
      -6 < ((natDigitsRev ((q * (10 : ℚ) ^ k).num.toNat)).length : ℤ) - k := by
  rcases hk : decExpSearch q with _ | k
  · rw [plainDecimal, hk] at h
    simp at h
  · rw [plainDecimal, hk] at h
    dsimp only at h
    exact ⟨k, rfl, of_decide_eq_true h⟩

/-- The JavaScript rendering of a non-negative amount that `Number::toString`
puts in positional (non-exponential) form is a plain `RM` numeral. -/
lemma jsNumToString_plain {q : ℚ} (hq : ¬ q < 0) (hp : plainDecimal q = true) :
    isPlainRM ("RM " ++ jsNumToString (.fin q)) = true := by
  obtain ⟨k, hk, hle, hlt⟩ := plainDecimal_elim hp
  rw [jsNumToString, if_neg hq, qToString, hk]
  dsimp only
  rw [if_neg (by rw [not_or]; exact ⟨not_lt.mpr hle, not_le.mpr hlt⟩)]
  by_cases hk0 : k = 0
  · subst hk0
    rw [if_pos rfl]
    have happ : natPlain ((q * (10 : ℚ) ^ (0 : ℕ)).num.toNat / 10 ^ (0 : ℕ)) ++ "" =
        natPlain ((q * (10 : ℚ) ^ (0 : ℕ)).num.toNat / 10 ^ (0 : ℕ)) := by
      apply String.ext
      rw [String.data_append]
      simp
    rw [happ]
    obtain ⟨h1, h2⟩ := natPlain_spec ((q * (10 : ℚ) ^ (0 : ℕ)).num.toNat / 10 ^ (0 : ℕ))
    exact isPlainRM_RM (isPlainNumeral_single h1 h2)
  · rw [if_neg hk0]
    apply isPlainRM_RM
    have hXdata :
        (natPlain ((q * (10 : ℚ) ^ k).num.toNat / 10 ^ k) ++
            ("." ++ padDigits k ((q * (10 : ℚ) ^ k).num.toNat % 10 ^ k))).data =
          (natPlain ((q * (10 : ℚ) ^ k).num.toNat / 10 ^ k)).data ++
            '.' :: (padDigits k ((q * (10 : ℚ) ^ k).num.toNat % 10 ^ k)).data := by
      rw [String.data_append, String.data_append]
      rfl
    rw [hXdata]
    obtain ⟨hA1, hA2⟩ := natPlain_spec ((q * (10 : ℚ) ^ k).num.toNat / 10 ^ k)
    obtain ⟨hB1, hB2⟩ := padDigits_spec k ((q * (10 : ℚ) ^ k).num.toNat % 10 ^ k) hk0
    exact isPlainNumeral_pair hA1 hB1 hA2 hB2

/-- A whole number needs no fraction digits. -/
lemma decExpSearch_natCast (n : ℕ) : decExpSearch ((n : ℕ) : ℚ) = some 0 := by
  rw [decExpSearch, Rat.den_natCast]
  rw [show List.range (1 + 1) = [0, 1] from by decide]
  rw [List.find?_cons_of_pos _ (by simp [Rat.den_natCast])]

/-- `plainDecimal` holds on every whole number of at most 21 digits. -/
lemma plainDecimal_natCast (m : ℕ) (hm : (natDigitsRev m).length ≤ 21) :
    plainDecimal ((m : ℕ) : ℚ) = true := by
  rw [plainDecimal, decExpSearch_natCast m]
  dsimp only
  have hN : (((m : ℕ) : ℚ) * (10 : ℚ) ^ (0 : ℕ)).num.toNat = m := by
    simp [Rat.num_natCast]
  rw [hN]
  refine decide_eq_true ⟨?_, ?_⟩
  · omega
  · omega

/-- `Number("1e21")` is exactly `10 ^ 21`: the string passes the edit guard
as a finite non-negative amount. -/
lemma jsNumber_1e21 : jsNumber "1e21" = .fin ((10 : ℚ) ^ 21) := by
  have h : jsNumberCore "1e21".data = .val false 1 0 0 false 21 := by decide
  norm_num [jsNumber, h, interpNumParse]

/-- `Number::toString` renders `10 ^ 21` in the exponential form, exactly as
JavaScript prints `(1e21).toString()`. -/
lemma jsNumToString_1e21 : jsNumToString (.fin ((10 : ℚ) ^ 21)) = "1e+21" := by
  have hcast : ((10 : ℚ) ^ 21) = ((10 ^ 21 : ℕ) : ℚ) := by push_cast; ring
  rw [hcast, jsNumToString]
  rw [if_neg (not_lt.mpr (by positivity))]
  rw [qToString, decExpSearch_natCast (10 ^ 21)]
  dsimp only
  have hN : (((10 ^ 21 : ℕ) : ℚ) * (10 : ℚ) ^ (0 : ℕ)).num.toNat = 10 ^ 21 := by
    simp [Rat.num_natCast]
  rw [hN]
  decide

/-- C7 counterexample: a file named `script.fountain` with content type
`application/octet-stream` has both its type and its extension outside the
PDF/TXT/FDX set (the type is not even in the source's wider allowed list),
yet the upload proceeds to the analysis request, because the source also
accepts the Fountain format. -/
theorem C7_counterexample :
    uploadFile "script.fountain" "application/octet-stream" = .requested ∧
      allowedTypes.contains "application/octet-stream" = false ∧
      [".pdf", ".txt", ".fdx"].contains (fileExtensionOf "script.fountain") = false := by
  refine ⟨by decide, by decide, by decide⟩

/-- C7 amended: the upload is rejected exactly when the declared type is
outside the source's allowed types (PDF, plain text, Fountain) and the
lower-cased extension is also outside the source's allowed extensions
(.pdf, .txt, .fountain, .fdx); conversely any allowed extension (including
.fountain) and any allowed declared type (whatever the extension) is
accepted and sent for analysis — in particular every file with a recognized
PDF, TXT or FDX extension. -/
theorem C7_upload_amended (name ftype : String) :
    (uploadFile name ftype = .rejected ↔
      allowedTypes.contains ftype = false ∧
        allowedExtensions.contains (fileExtensionOf name) = false) ∧
      (allowedExtensions.contains (fileExtensionOf name) = true →
        uploadFile name ftype = .requested) ∧
      (allowedTypes.contains ftype = true → uploadFile name ftype = .requested) ∧
      ([".pdf", ".txt", ".fdx"].contains (fileExtensionOf name) = true →
        uploadFile name ftype = .requested) := by
  have hrej : allowedTypes.contains ftype = false →
      allowedExtensions.contains (fileExtensionOf name) = false →
      uploadFile name ftype = .rejected := by
    intro h1 h2
    rw [uploadFile, if_pos ⟨by rw [h1]; simp, by rw [h2]; simp⟩]
  have hreqE : allowedExtensions.contains (fileExtensionOf name) = true →
      uploadFile name ftype = .requested := by
    intro h2
    rw [uploadFile, if_neg]
    rintro ⟨-, hc2⟩
    exact hc2 h2
  have hreqT : allowedTypes.contains ftype = true → uploadFile name ftype = .requested := by
    intro h1
    rw [uploadFile, if_neg]
    rintro ⟨hc1, -⟩
    exact hc1 h1
  refine ⟨⟨?_, fun h => hrej h.1 h.2⟩, hreqE, hreqT, ?_⟩
  · intro h
    cases ht1 : allowedTypes.contains ftype with
    | false =>
      cases he1 : allowedExtensions.contains (fileExtensionOf name) with
      | false => exact ⟨rfl, rfl⟩
      | true =>
        rw [hreqE he1] at h
        exact absurd h (by simp)
    | true =>
      rw [hreqT ht1] at h
      exact absurd h (by simp)
  · intro h
    have hmem : fileExtensionOf name = ".pdf" ∨ fileExtensionOf name = ".txt" ∨
        fileExtensionOf name = ".fdx" := by simpa using h
    apply hreqE
    rcases hmem with h' | h' | h' <;> rw [h'] <;> decide

/-- Witness for C7 amended: an `.exe` upload with a generic type is
rejected; an upper-case `.PDF` upload and a `.fountain` upload with an
unrecognized type are accepted, as is an unknown extension with the
`text/plain` type. -/
theorem C7_upload_amended_witness :
    uploadFile "a.exe" "application/octet-stream" = .rejected ∧
      uploadFile "b.PDF" "application/octet-stream" = .requested ∧
      uploadFile "c.fountain" "application/octet-stream" = .requested ∧
      uploadFile "d.xyz" "text/plain" = .requested :=
  ⟨(C7_upload_amended "a.exe" "application/octet-stream").1.mpr ⟨by decide, by decide⟩,
   (C7_upload_amended "b.PDF" "application/octet-stream").2.2.2 (by decide),
   (C7_upload_amended "c.fountain" "application/octet-stream").2.1 (by decide),
   (C7_upload_amended "d.xyz" "text/plain").2.2.1 (by decide)⟩

/-- C8: when the entered amount is `NaN` or negative, or when no category
key's display name matches the edited category, `saveBudgetEdit` leaves both
budget mappings of the selected project (and of any project) unchanged. -/
theorem C8_edit_error_frame (s : BudgetEditState)
    (h : jsNumber s.editAmount = .nan
       ∨ jsNumber s.editAmount = .ninf
       ∨ (∃ q, jsNumber s.editAmount = .fin q ∧ q < 0)
       ∨ (∀ nm proj b, s.editing = some nm → s.project = some proj →
            proj.scriptBudget = some b → findCategoryKey b nm = none)) :
    ((saveBudgetEdit s).project.map ProjectBudgets.scriptBudget =
        s.project.map ProjectBudgets.scriptBudget) ∧
      ((saveBudgetEdit s).project.map ProjectBudgets.analysisBudget =
        s.project.map ProjectBudgets.analysisBudget) := by
  rcases hse : s.editing with _ | nm
  · simp [saveBudgetEdit, hse]
  · rcases hsp : s.project with _ | proj
    · simp [saveBudgetEdit, hse, hsp]
    · by_cases hguard : jsNumber s.editAmount = .nan ∨ jsLtZero (jsNumber s.editAmount)
      · simp [saveBudgetEdit, hse, hsp, hguard]
      · have hfind : ∀ b, proj.scriptBudget = some b → findCategoryKey b nm = none := by
          rcases h with h1 | h2 | ⟨q, h3, h3'⟩ | h4
          · exact absurd (Or.inl h1) hguard
          · exact absurd (Or.inr (by rw [h2]; rfl)) hguard
          · exact absurd (Or.inr (by rw [h3]; simp [jsLtZero, h3'])) hguard
          · exact fun b hb => h4 nm proj b hse hsp hb
        rcases hb : proj.scriptBudget with _ | b
        · simp [saveBudgetEdit, hse, hsp, hguard, hb]
        · simp [saveBudgetEdit, hse, hsp, hguard, hb, hfind b hb]

/-- Evaluate `Number` on a whole-number string through the parse core. -/
lemma jsNumber_eval_nat (s : String) (n : ℕ)
    (h : jsNumberCore s.data = .val false n 0 0 false 0) : jsNumber s = .fin (n : ℚ) := by
  simp [jsNumber, h, interpNumParse]

/-- Witness for C8: editing `Crew` with the amount text `abc` (which is
`NaN`) leaves the budget mappings untouched. -/
theorem C8_edit_error_frame_witness :
    ((saveBudgetEdit ⟨some "Crew", "abc", some ⟨some [("crew", "RM 900")], none⟩⟩).project.map
        ProjectBudgets.scriptBudget =
      (BudgetEditState.mk (some "Crew") "abc"
          (some ⟨some [("crew", "RM 900")], none⟩)).project.map ProjectBudgets.scriptBudget) ∧
      ((saveBudgetEdit ⟨some "Crew", "abc", some ⟨some [("crew", "RM 900")], none⟩⟩).project.map
          ProjectBudgets.analysisBudget =
        (BudgetEditState.mk (some "Crew") "abc"
            (some ⟨some [("crew", "RM 900")], none⟩)).project.map ProjectBudgets.analysisBudget) :=
  C8_edit_error_frame ⟨some "Crew", "abc", some ⟨some [("crew", "RM 900")], none⟩⟩
    (Or.inl (by decide))

/-- A key found by display name is one of the mapping's keys. -/
lemma findCategoryKey_mem {b : BudgetMap} {nm k : String}
    (h : findCategoryKey b nm = some k) : k ∈ b.map Prod.fst := by
  rw [findCategoryKey] at h
  exact List.mem_of_find?_eq_some h

/-- Replacing the value of key `k` in place: looking `k` up afterwards finds
the new value. -/
lemma lookup_setfun_self {b : BudgetMap} {k : String} (v : String)
    (hmem : k ∈ b.map Prod.fst) :
    ((b.map fun p => if p.1 = k then (p.1, v) else p).lookup k) = some v := by
  induction b with
  | nil => simp at hmem
  | cons p ps ih =>
    obtain ⟨pk, pv⟩ := p
    by_cases hp : pk = k
    · subst hp
      simp only [List.map_cons, if_pos rfl]
      exact List.lookup_cons_self
    · have hmem' : k ∈ ps.map Prod.fst := by simpa [Ne.symm hp] using hmem
      simp only [List.map_cons, if_neg hp]
      rw [List.lookup_cons, show (k == pk) = false from by simp [Ne.symm hp]]
      exact ih hmem'

/-- Replacing the value of key `k` does not disturb lookups of other keys. -/
lemma lookup_setfun_other {b : BudgetMap} {k k' : String} (v : String) (hne : k' ≠ k) :
    ((b.map fun p => if p.1 = k then (p.1, v) else p).lookup k') = b.lookup k' := by
  induction b with
  | nil => rfl
  | cons p ps ih =>
    obtain ⟨pk, pv⟩ := p
    by_cases hp : pk = k
    · subst hp
      simp only [List.map_cons]
      rw [if_pos trivial]
      rw [List.lookup_cons, List.lookup_cons,
        show (k' == pk) = false from by simp [hne]]
      exact ih
    · by_cases hk' : k' = pk
      · subst hk'
        simp only [List.map_cons, if_neg hp]
        rw [List.lookup_cons, List.lookup_cons]
        simp
      · simp only [List.map_cons, if_neg hp]
        rw [List.lookup_cons, List.lookup_cons,
          show (k' == pk) = false from by simp [hk']]
        exact ih

/-- `setKey` on an existing key: the new value is found at `k`. -/
lemma setKey_lookup_self {b : BudgetMap} {k : String} (v : String)
    (hmem : k ∈ b.map Prod.fst) : (setKey b k v).lookup k = some v := by
  rw [setKey, if_pos (by simpa using hmem)]
  exact lookup_setfun_self v hmem

/-- `setKey` on an existing key: other keys are untouched. -/
lemma setKey_lookup_other {b : BudgetMap} {k k' : String} (v : String)
    (hmem : k ∈ b.map Prod.fst) (hne : k' ≠ k) :
    (setKey b k v).lookup k' = b.lookup k' := by
  rw [setKey, if_pos (by simpa using hmem)]
  exact lookup_setfun_other v hne

/-- Core of a successful budget edit: the guard passes, the matched key is
rewritten to `RM ` followed by the JavaScript rendering of the amount, and
every other key is untouched. -/
lemma saveBudgetEdit_writes (s : BudgetEditState) (nm : String) (proj : ProjectBudgets)
    (b : BudgetMap) (q : ℚ) (k : String)
    (hse : s.editing = some nm) (hsp : s.project = some proj)
    (hb : proj.scriptBudget = some b)
    (hn : jsNumber s.editAmount = .fin q) (hq : ¬ q < 0)
    (hk : findCategoryKey b nm = some k) :
    ∃ b', ((saveBudgetEdit s).project.bind ProjectBudgets.scriptBudget) = some b' ∧
      b'.lookup k = some ("RM " ++ jsNumToString (.fin q)) ∧
      ∀ k', k' ≠ k → b'.lookup k' = b.lookup k' := by
  have hguard : ¬(jsNumber s.editAmount = .nan ∨ jsLtZero (jsNumber s.editAmount)) := by
    rw [hn]
    simp [jsLtZero, hq]
  have hmem := findCategoryKey_mem hk
  refine ⟨setKey b k ("RM " ++ jsNumToString (.fin q)), ?_, ?_, ?_⟩
  · simp [saveBudgetEdit, hse, hsp, hguard, hb, hk, hn, jsLtZero, hq]
  · exact setKey_lookup_self _ hmem
  · exact fun k' hne => setKey_lookup_other _ hmem hne

/-- C6 amended: every amount in the displayed breakdown is `RM ` followed by
the locale-grouped rendering of a non-negative value (which carries thousands
separators from 1000 up), while a successful budget edit writes back `RM `
followed by JavaScript's default rendering of the entered amount — a plain
integer or decimal numeral exactly when `Number::toString` picks the
positional form (the amount is zero or lies in `[1e-6, 1e21)`), and an
exponential form beyond it: the guard-passing entry `1e21` writes
`RM 1e+21`, which is not a plain numeral. -/
theorem C6_currency_amended :
    (∀ (b : BudgetMap) (e : BudgetEntry), e ∈ breakdown b →
        ∃ q : ℚ, 0 ≤ q ∧ e.amount = "RM " ++ toLocaleQ q) ∧
      (∀ (s : BudgetEditState) (nm : String) (proj : ProjectBudgets) (b : BudgetMap)
          (q : ℚ) (k : String),
        s.editing = some nm → s.project = some proj → proj.scriptBudget = some b →
        jsNumber s.editAmount = .fin q → ¬ q < 0 → findCategoryKey b nm = some k →
        ∃ b', ((saveBudgetEdit s).project.bind ProjectBudgets.scriptBudget) = some b' ∧
          b'.lookup k = some ("RM " ++ jsNumToString (.fin q)) ∧
          (plainDecimal q = true → isPlainRM ("RM " ++ jsNumToString (.fin q)) = true)) ∧
      (jsNumber "1e21" = .fin ((10 : ℚ) ^ 21) ∧
        jsNumToString (.fin ((10 : ℚ) ^ 21)) = "1e+21" ∧
        isPlainRM "RM 1e+21" = false) := by
  refine ⟨?_, ?_, jsNumber_1e21, jsNumToString_1e21, by decide⟩
  · intro b e he
    obtain ⟨h0, p, hp, rfl, hpos⟩ := mem_breakdown he
    rcases parseRM_cases p.2 with ha | ⟨a, ha0, ha⟩
    · exfalso
      have hper : (mkEntry (totalOf b) p).percent = .nan := by
        simp [mkEntry, ha, jsDiv_nan_left, jsMul_nan_left, jsToFixed1]
      rw [hper] at hpos
      simp [jsGtZero] at hpos
    · exact ⟨a, ha0, by simp [mkEntry, ha, jsToLocale]⟩
  · intro s nm proj b q k hse hsp hb hn hq hk
    obtain ⟨b', hb1, hb2, _⟩ := saveBudgetEdit_writes s nm proj b q k hse hsp hb hn hq hk
    exact ⟨b', hb1, hb2, fun hp => jsNumToString_plain hq hp⟩

/-- Witness for C6 amended: the displayed talent amount `RM 1,500` is the
grouped rendering of 1500; editing `Crew` to 3 writes back the plain
`RM 3`. -/
theorem C6_currency_amended_witness :
    (∃ q : ℚ, 0 ≤ q ∧
        (BudgetEntry.mk "Talent" "RM 1,500" (.fin 75) "#00C6FB").amount = "RM " ++ toLocaleQ q) ∧
      ∃ b', ((saveBudgetEdit ⟨some "Crew", "3",
          some ⟨some [("crew", "RM 900")], none⟩⟩).project.bind
            ProjectBudgets.scriptBudget) = some b' ∧
        b'.lookup "crew" = some ("RM " ++ jsNumToString (.fin (3 : ℚ))) ∧
        isPlainRM ("RM " ++ jsNumToString (.fin (3 : ℚ))) = true := by
  constructor
  · exact C6_currency_amended.1 [("talent", "RM 1500"), ("crew", "RM 500")] _
      (by rw [breakdown_grouped_eval]; simp)
  · have hn : jsNumber "3" = .fin (3 : ℚ) := by
      have h := jsNumber_eval_nat "3" 3 (by decide)
      exact_mod_cast h
    have hpd : plainDecimal (3 : ℚ) = true := by
      have h := plainDecimal_natCast 3 (by decide)
      exact_mod_cast h
    obtain ⟨b', h1, h2, h3⟩ := C6_currency_amended.2.1 ⟨some "Crew", "3",
        some ⟨some [("crew", "RM 900")], none⟩⟩ "Crew" ⟨some [("crew", "RM 900")], none⟩
        [("crew", "RM 900")] 3 "crew" rfl rfl rfl hn (by norm_num) (by decide)
    exact ⟨b', h1, h2, h3 hpd⟩

/-- C9: a successful budget edit of one category with a valid non-negative
amount replaces exactly that category's entry with `RM ` followed by the
amount; the value at every other key is exactly what it was. -/
theorem C9_edit_success (s : BudgetEditState) (nm : String) (proj : ProjectBudgets)
    (b : BudgetMap) (q : ℚ) (k : String)
    (hse : s.editing = some nm) (hsp : s.project = some proj)
    (hb : proj.scriptBudget = some b)
    (hn : jsNumber s.editAmount = .fin q) (hq : ¬ q < 0)
    (hk : findCategoryKey b nm = some k) :
    ∃ b', ((saveBudgetEdit s).project.bind ProjectBudgets.scriptBudget) = some b' ∧
      b'.lookup k = some ("RM " ++ jsNumToString (.fin q)) ∧
      ∀ k', k' ≠ k → b'.lookup k' = b.lookup k' :=
  saveBudgetEdit_writes s nm proj b q k hse hsp hb hn hq hk

/-- Witness for C9: editing `Crew` to 250 in
`talent: RM 400, crew: RM 900` rewrites only the crew entry, to `RM 250`. -/
theorem C9_edit_success_witness :
    ∃ b', ((saveBudgetEdit ⟨some "Crew", "250",
        some ⟨some [("talent", "RM 400"), ("crew", "RM 900")], none⟩⟩).project.bind
          ProjectBudgets.scriptBudget) = some b' ∧
      b'.lookup "crew" = some ("RM " ++ jsNumToString (.fin (250 : ℚ))) ∧
      ∀ k', k' ≠ "crew" →
        b'.lookup k' = (([("talent", "RM 400"), ("crew", "RM 900")] : BudgetMap).lookup k') := by
  refine C9_edit_success _ "Crew" ⟨some [("talent", "RM 400"), ("crew", "RM 900")], none⟩
    [("talent", "RM 400"), ("crew", "RM 900")] 250 "crew" rfl rfl rfl ?_ (by norm_num) (by decide)
  have := jsNumber_eval_nat "250" 250 (by decide)
  exact_mod_cast this

/-- C10 counterexample: `setAuth` with the empty-string token stores a
non-null token, yet `isAuthenticated` (string truthiness) is false — so the
invariant "authenticated exactly when the token is non-null" and the claim
"after any setAuth call isAuthenticated is true" both fail. -/
theorem C10_counterexample :
    isAuthenticated (setAuth ⟨none, none⟩ ""
        ⟨"id1", "user", "u@example.com", none, none, false, none, "2024-01-01"⟩) = false ∧
      (setAuth ⟨none, none⟩ ""
          ⟨"id1", "user", "u@example.com", none, none, false, none, "2024-01-01"⟩).accessToken =
        some "" ∧
      some "" ≠ (none : Option String) := by
  exact ⟨by decide, rfl, by simp⟩

/-- C10 amended: `isAuthenticated` holds exactly when the stored token is
non-null and non-empty; after `setAuth` with a non-empty token the store is
authenticated with token and user set (with an empty token the fields are
set but the store is not authenticated); after `logout` the store is
unauthenticated with both fields null. -/
theorem C10_auth_amended :
    (∀ s : AuthState, isAuthenticated s = true ↔ ∃ t, s.accessToken = some t ∧ t ≠ "") ∧
      (∀ (s : AuthState) (t : String) (u : AuthUser), t ≠ "" →
        isAuthenticated (setAuth s t u) = true ∧ (setAuth s t u).accessToken = some t ∧
          (setAuth s t u).user = some u) ∧
      ∀ s : AuthState, isAuthenticated (logout s) = false ∧
        (logout s).accessToken = none ∧ (logout s).user = none := by
  refine ⟨?_, ?_, ?_⟩
  · intro s
    constructor
    · intro h
      cases ht : s.accessToken with
      | none => rw [isAuthenticated, ht] at h; exact absurd h (by simp)
      | some t =>
        refine ⟨t, rfl, ?_⟩
        rw [isAuthenticated, ht] at h
        simpa using h
    · rintro ⟨t, ht, hne⟩
      rw [isAuthenticated, ht]
      simpa using hne
  · intro s t u ht
    exact ⟨by simp [isAuthenticated, setAuth, ht], rfl, rfl⟩
  · intro s
    exact ⟨rfl, rfl, rfl⟩

/-- Witness for C10 amended at a non-empty token and a concrete logout. -/
theorem C10_auth_amended_witness :
    (isAuthenticated (setAuth ⟨none, none⟩ "tok"
          ⟨"id1", "user", "u@example.com", none, none, false, none, "2024-01-01"⟩) = true ∧
        (setAuth ⟨none, none⟩ "tok"
            ⟨"id1", "user", "u@example.com", none, none, false, none, "2024-01-01"⟩).accessToken =
          some "tok" ∧
        (setAuth ⟨none, none⟩ "tok"
            ⟨"id1", "user", "u@example.com", none, none, false, none, "2024-01-01"⟩).user =
          some ⟨"id1", "user", "u@example.com", none, none, false, none, "2024-01-01"⟩) ∧
      (isAuthenticated (logout ⟨some "x", none⟩) = false ∧
        (logout ⟨some "x", none⟩).accessToken = none ∧ (logout ⟨some "x", none⟩).user = none) :=
  ⟨C10_auth_amended.2.1 ⟨none, none⟩ "tok"
      ⟨"id1", "user", "u@example.com", none, none, false, none, "2024-01-01"⟩ (by decide),
   C10_auth_amended.2.2 ⟨some "x", none⟩⟩
